import Mathlib

/-!
# Schedule Normalization & Grouping Engine — verification

A shallow embedding of the course-schedule subsystem of the
trainmice-mvp-production repository:

* `normalizeTime`, `calculateDurationMinutes`, `parseModuleTitle`,
  `parseSubmoduleTitle` from
  `backend-production/src/scripts/import-course-schedule-production.ts`;
* the quoted-array submodule parser `parseSubmoduleTitleArr` from the
  array-storing import variant;
* `getSessionsAndDays`, `groupScheduleBySession`, `flattenSchedule` from
  `projectTrainer-production/src/components/courses/ScheduleBuilder.tsx`;
* the row-by-row import loops `importCourseSchedule` (skip-if-exists) and
  `cleanAndImportCourseSchedule` (delete-all-then-recreate).

JavaScript strings are modelled as Lean `String`/`List Char`; JS `Map`s as
insertion-ordered association lists; JS `number` values that are used as
integers as `Int`/`Nat`, and the course duration value as `ℚ`; `NaN`
propagation is modelled with `Option`.  The JS whitespace classes (`trim`,
`\s`) are modelled by `Char.isWhitespace`; the data these properties touch
is ASCII.
-/

namespace TrainMice

/-! ## Basic character/string helpers (models of the JS primitives used) -/

/-- Drop the trailing run of characters satisfying `p`. -/
def dropTrailing (p : Char → Bool) : List Char → List Char
  | [] => []
  | c :: cs =>
    let r := dropTrailing p cs
    if r.isEmpty && p c then [] else c :: r

/-- Model of `String.prototype.trim`: drop leading and trailing whitespace. -/
def jsTrimL (l : List Char) : List Char :=
  dropTrailing Char.isWhitespace (l.dropWhile Char.isWhitespace)

/-- `trim` on packed strings. -/
def jsTrim (s : String) : String := ⟨jsTrimL s.data⟩

/-- Model of `String.prototype.toUpperCase` (ASCII, which is all the code
compares against). -/
def upperL (l : List Char) : List Char := l.map Char.toUpper

/-- Digit value of a decimal digit character. -/
def charVal (c : Char) : Nat := c.toNat - 48

/-- Numeric value of a list of decimal digit characters
(model of `parseInt` on an all-digit string). -/
def digitsVal (l : List Char) : Nat :=
  l.foldl (fun a c => 10 * a + charVal c) 0

/-- Model of splitting a JS string on a single-character separator
(`s.split(sep)`): always returns at least one (possibly empty) segment. -/
def splitOnCharL (sep : Char) : List Char → List (List Char)
  | [] => [[]]
  | c :: cs =>
    match splitOnCharL sep cs with
    | [] => [[]]
    | g :: gs => if c = sep then [] :: g :: gs else (c :: g) :: gs

/-- Model of `String.prototype.padStart(2, '0')`. -/
def padStart2L (l : List Char) : List Char :=
  if l.length < 2 then List.replicate (2 - l.length) '0' ++ l else l

/-- First `some` produced by `f` over a list of candidates, in order.  Used to
model the backtracking priority of a JS regex engine. -/
def firstSome (cands : List α) (f : α → Option β) : Option β :=
  (cands.filterMap f).head?

/-! ## Decimal representation of `Nat`

`Nat.repr` (the model of the JS template-literal rendering of an integer) is
shown to produce nonempty all-digit strings and to be injective.  This backs
the reasoning about the `` `${day}-${startTime}` `` grouping keys and about
the `HH:MM` strings produced by `normalizeTime`. -/

/-- Structural-recursion companion of `Nat.toDigitsCore` at base 10. -/
def decDigits (n : Nat) : List Char :=
  if _h : n < 10 then [Nat.digitChar n]
  else decDigits (n / 10) ++ [Nat.digitChar (n % 10)]
  decreasing_by
    exact Nat.div_lt_self (by omega) (by omega)

/-! ## TimeNormalizer — `normalizeTime`
(`import-course-schedule-production.ts`, lines 21–52)

The source trims, replaces every `.` with `:`, then matches the regex
`/(\d{1,2}):?(\d{2})?\s*(a\.?m\.?|p\.?m\.?)/i`; failing that it matches
`/(\d{1,2}):(\d{2})/`; failing that it returns the default `"09:00"`.
The two regexes are modelled as explicit leftmost-match, greedy,
backtracking matchers (`scanMeridiem`, `scanSimple`). -/

/-- Candidate splits for the greedy `\d{1,2}` group, in backtracking
priority order (two digits preferred over one). -/
def hourCands : List Char → List (List Char × List Char)
  | a :: b :: r =>
    if a.isDigit then
      if b.isDigit then [([a, b], r), ([a], b :: r)] else [([a], b :: r)]
    else []
  | [a] => if a.isDigit then [([a], [])] else []
  | [] => []

/-- Candidate remainders for the optional `:?` (consuming preferred). -/
def colonCands : List Char → List (List Char)
  | ':' :: r => [r, ':' :: r]
  | r => [r]

/-- Candidate matches for the optional minutes group `(\d{2})?`
(capturing preferred). -/
def minCands : List Char → List (Option (List Char) × List Char)
  | a :: b :: r =>
    if a.isDigit && b.isDigit then [(some [a, b], r), (none, a :: b :: r)]
    else [(none, a :: b :: r)]
  | r => [(none, r)]

/-- After the `a`/`p` letter: `\.?m\.?` (case-insensitive `m`). -/
def afterMeridiemLetter : List Char → Bool
  | '.' :: c :: _ => c == 'm' || c == 'M'
  | c :: _ => c == 'm' || c == 'M'
  | [] => false

/-- The meridiem alternation `(a\.?m\.?|p\.?m\.?)`, case-insensitively;
returns `some true` for PM, `some false` for AM. -/
def parseMeridiem : List Char → Option Bool
  | c :: r =>
    if c == 'a' || c == 'A' then (if afterMeridiemLetter r then some false else none)
    else if c == 'p' || c == 'P' then (if afterMeridiemLetter r then some true else none)
    else none
  | [] => none

/-- Continue the meridiem regex after the hour digits:
`:?(\d{2})?\s*(a\.?m\.?|p\.?m\.?)`. -/
def afterHours (hd : List Char) (rest : List Char) :
    Option (List Char × Option (List Char) × Bool) :=
  firstSome (colonCands rest) (fun r1 =>
    firstSome (minCands r1) (fun mg =>
      (parseMeridiem (mg.2.dropWhile Char.isWhitespace)).map (fun isPM => (hd, mg.1, isPM))))

/-- Match the meridiem regex anchored at the head of `l`. -/
def matchMeridiemAt (l : List Char) : Option (List Char × Option (List Char) × Bool) :=
  firstSome (hourCands l) (fun hc => afterHours hc.1 hc.2)

/-- Leftmost match of the meridiem regex (the JS `String.prototype.match`). -/
def scanMeridiem : List Char → Option (List Char × Option (List Char) × Bool)
  | [] => none
  | c :: rest => matchMeridiemAt (c :: rest) <|> scanMeridiem rest

/-- Match `/(\d{1,2}):(\d{2})/` anchored at the head of `l`. -/
def matchSimpleAt (l : List Char) : Option (List Char × List Char) :=
  firstSome (hourCands l) (fun hc =>
    match hc.2 with
    | ':' :: a :: b :: _ => if a.isDigit && b.isDigit then some (hc.1, [a, b]) else none
    | _ => none)

/-- Leftmost match of the plain `HH:MM` regex. -/
def scanSimple : List Char → Option (List Char × List Char)
  | [] => none
  | c :: rest => matchSimpleAt (c :: rest) <|> scanSimple rest

/-- The template literal
`` `${String(hours).padStart(2,'0')}:${minutes.padStart(2,'0')}` ``. -/
def fmtHM (hours : Nat) (minutes : List Char) : String :=
  ⟨padStart2L (Nat.repr hours).data ++ ':' :: padStart2L minutes⟩

/-- `normalizeTime` from `import-course-schedule-production.ts`. -/
def normalizeTime (timeStr : String) : String :=
  let t := jsTrimL timeStr.data
  if t = [] ∨ upperL t = "NULL".data then "09:00"
  else
    let cleaned := t.map (fun c => if c = '.' then ':' else c)
    match scanMeridiem cleaned with
    | some (hd, mg, isPM) =>
      let hours := digitsVal hd
      let minutes := mg.getD ['0', '0']
      let hours24 :=
        if isPM && hours != 12 then hours + 12
        else if !isPM && hours == 12 then 0
        else hours
      fmtHM hours24 minutes
    | none =>
      match scanSimple cleaned with
      | some (hd, mns) => fmtHM (digitsVal hd) mns
      | none => "09:00"

/-- Well-formedness of a captured hour group and optional minute group. -/
def GoodHM (hd : List Char) (mg : Option (List Char)) : Prop :=
  hd ≠ [] ∧ (∀ c ∈ hd, c.isDigit = true) ∧
    ∀ m, mg = some m → m.length = 2 ∧ ∀ c ∈ m, c.isDigit = true

/-! ## TimeNormalizer — `calculateDurationMinutes`
(`import-course-schedule-production.ts`, lines 90–112)

`calculateDurationMinutes` normalizes both arguments, splits each on `:`,
coerces the components with `Number`, and computes
`end − start (+1440 if negative)`, returning the fallback `120` whenever the
result is not positive.  JS `NaN` propagation is modelled with `Option`. -/

/-- Model of the JS `Number` coercion on the component strings that reach it
here (substrings of `normalizeTime` output, hence empty or all-digit):
whitespace-trimmed empty text is `0`, a digit run is its value, and anything
else is `NaN` (`none`). -/
def jsNumberL (l : List Char) : Option Nat :=
  let t := jsTrimL l
  if t = [] then some 0
  else if t.all Char.isDigit then some (digitsVal t) else none

/-- `const [h, m] = parts; h * 60 + m` with JS `undefined`/`NaN` arithmetic:
fewer than two components, or a `NaN` component, gives `NaN`. -/
def destructTotal : List (Option Nat) → Option Int
  | some h :: some m :: _ => some ((h : Int) * 60 + m)
  | _ :: _ :: _ => none
  | _ => none

/-- `NaN < b` is false in JS. -/
def jsLtOpt (a : Option Int) (b : Int) : Bool :=
  match a with
  | some x => decide (x < b)
  | none => false

/-- `calculateDurationMinutes` from `import-course-schedule-production.ts`. -/
def calculateDurationMinutes (startTime endTime : String) : Int :=
  let start := normalizeTime startTime
  let stop := normalizeTime endTime
  let startTotal := destructTotal ((splitOnCharL ':' start.data).map jsNumberL)
  let endTotal := destructTotal ((splitOnCharL ':' stop.data).map jsNumberL)
  let duration :=
    match endTotal, startTotal with
    | some e, some s => some (e - s)
    | _, _ => none
  let duration2 := if jsLtOpt duration 0 then duration.map (· + 1440) else duration
  match duration2 with
  | some d => if 0 < d then d else 120
  | none => 120

/-- Modelled from the spec's words: "converts both to minutes-since-midnight"
— parse a time as exactly two `:`-separated numeric components. -/
def minutesSinceMidnight (t : String) : Option Int :=
  match (splitOnCharL ':' t.data).map jsNumberL with
  | [some h, some m] => some ((h : Int) * 60 + m)
  | _ => none

/-- The duration contract exactly as the claim states it: convert both
arguments to minutes-since-midnight, subtract, add 1440 when the end is
earlier, and fall back to 120 only when either time fails to parse into two
numeric components. -/
def durationSpecC4 (s e : String) : Int :=
  match minutesSinceMidnight s, minutesSinceMidnight e with
  | some a, some b => if b < a then b - a + 1440 else b - a
  | _, _ => 120

/-- Minutes-since-midnight of a time after normalization (total, because
`normalizeTime` always emits a parseable `H:MM` string). -/
def normMinutes (t : String) : Int :=
  (minutesSinceMidnight (normalizeTime t)).getD 0

/-- The amended duration contract: both arguments are normalized first (so
they always parse), the difference gets 1440 added when the end is earlier,
and the fixed fallback 120 is returned whenever the adjusted difference is
not positive (in particular for equal times). -/
def amendedDuration (s e : String) : Int :=
  let a := normMinutes s
  let b := normMinutes e
  let d := if b < a then b - a + 1440 else b - a
  if 0 < d then d else 120

/-- Model of `parseInt(s, 10)`: skip leading whitespace, optional sign,
then a leading digit run; `NaN` (`none`) if there are no digits. -/
def leadingDigitsVal (r : List Char) : Option Nat :=
  let ds := r.takeWhile Char.isDigit
  if ds.isEmpty then none else some (digitsVal ds)

def jsParseInt (s : String) : Option Int :=
  match s.data.dropWhile Char.isWhitespace with
  | '-' :: r => (leadingDigitsVal r).map (fun v => -(v : Int))
  | '+' :: r => (leadingDigitsVal r).map (fun v => (v : Int))
  | r => (leadingDigitsVal r).map (fun v => (v : Int))

/-! ## ListFieldNormalizer — module/submodule parsers

`parseModuleTitle` (pipe-delimited) and `parseSubmoduleTitle`
(newline/bullet-delimited) from `import-course-schedule-production.ts`
(lines 57–85), and the quoted-array-literal parser `parseSubmoduleTitleArr`
from the array-storing import variant (`src/unnamed/part_001`, lines 53–92),
which rewrites single quotes to double quotes, runs `JSON.parse`, and falls
back to extracting `/'([^']+)'/g` matches when parsing throws. -/

/-- `parseModuleTitle`: sentinel check, split on `|`, trim, drop empties. -/
def parseModuleTitle (moduleTitle : String) : List String :=
  if jsTrimL moduleTitle.data = [] ∨ upperL (jsTrimL moduleTitle.data) = "NULL".data then []
  else
    ((splitOnCharL '|' moduleTitle.data).map
      (fun seg => (⟨jsTrimL seg⟩ : String))).filter (fun m => m != "")

/-- The character class `[\s•\-\*]` of the bullet-stripping regex. -/
def isBulletChar (c : Char) : Bool :=
  c.isWhitespace || c == '•' || c == '-' || c == '*'

/-- `parseSubmoduleTitle` (production bullet variant): sentinel check, split
on newlines, strip each line's leading bullet run, trim, drop empties. -/
def parseSubmoduleTitle (submoduleTitle : String) : List String :=
  if jsTrimL submoduleTitle.data = [] ∨ upperL (jsTrimL submoduleTitle.data) = "NULL".data then []
  else
    ((splitOnCharL '\n' submoduleTitle.data).map
      (fun line => (⟨jsTrimL (line.dropWhile isBulletChar)⟩ : String))).filter
      (fun m => m != "")

/-- JSON values as produced by `JSON.parse`.  Numeric payloads are not
recorded: the submodule parser filters them out, so only the syntactic
accept/reject behaviour of numbers matters here. -/
inductive Json where
  | null : Json
  | bool (b : Bool) : Json
  | num : Json
  | str (s : String) : Json
  | arr (xs : List Json) : Json
  | obj (fields : List (String × Json)) : Json

/-- JSON insignificant whitespace. -/
def jsonWs (l : List Char) : List Char :=
  l.dropWhile (fun c => c == ' ' || c == '\t' || c == '\n' || c == '\r')

def isHexDigitChar (c : Char) : Bool :=
  c.isDigit || (97 ≤ c.toNat && c.toNat ≤ 102) || (65 ≤ c.toNat && c.toNat ≤ 70)

def hexDigitVal (c : Char) : Nat :=
  if c.isDigit then c.toNat - 48
  else if 97 ≤ c.toNat && c.toNat ≤ 102 then c.toNat - 87
  else c.toNat - 55

/-- Body of a JSON string after the opening quote: returns the decoded
content and the remainder after the closing quote. -/
def jStrBody : Nat → List Char → Option (List Char × List Char)
  | 0, _ => none
  | _, [] => none
  | fuel + 1, c :: r =>
    if c = '"' then some ([], r)
    else if c = '\\' then
      match r with
      | [] => none
      | e :: r2 =>
        let cont := fun (d : Char) (rest : List Char) =>
          (jStrBody fuel rest).map (fun p => (d :: p.1, p.2))
        if e = '"' then cont '"' r2
        else if e = '\\' then cont '\\' r2
        else if e = '/' then cont '/' r2
        else if e = 'b' then cont (Char.ofNat 8) r2
        else if e = 'f' then cont (Char.ofNat 12) r2
        else if e = 'n' then cont '\n' r2
        else if e = 'r' then cont '\r' r2
        else if e = 't' then cont '\t' r2
        else if e = 'u' then
          match r2 with
          | h1 :: h2 :: h3 :: h4 :: r3 =>
            if isHexDigitChar h1 && isHexDigitChar h2 && isHexDigitChar h3 && isHexDigitChar h4 then
              cont (Char.ofNat (((hexDigitVal h1 * 16 + hexDigitVal h2) * 16
                + hexDigitVal h3) * 16 + hexDigitVal h4)) r3
            else none
          | _ => none
        else none
    else if c.toNat < 32 then none
    else (jStrBody fuel r).map (fun p => (c :: p.1, p.2))

/-- Exponent part of a JSON number (optional). -/
def jNumAfterExp (l : List Char) : Option (List Char) :=
  match l with
  | e :: r2 =>
    if e = 'e' ∨ e = 'E' then
      let r3 := match r2 with
        | '+' :: r4 => r4
        | '-' :: r4 => r4
        | _ => r2
      let ds := r3.takeWhile Char.isDigit
      if ds.isEmpty then none else some (r3.drop ds.length)
    else some l
  | [] => some []

/-- Fraction-then-exponent part of a JSON number (both optional). -/
def jNumAfterInt (l : List Char) : Option (List Char) :=
  match l with
  | '.' :: r2 =>
    let ds := r2.takeWhile Char.isDigit
    if ds.isEmpty then none else jNumAfterExp (r2.drop ds.length)
  | _ => jNumAfterExp l

/-- A JSON number (grammar check only; the value is irrelevant here). -/
def jNum (l : List Char) : Option (Json × List Char) :=
  let body := fun (r : List Char) =>
    match r with
    | '0' :: rest => jNumAfterInt rest
    | c :: rest =>
      if c.isDigit then jNumAfterInt (rest.dropWhile Char.isDigit) else none
    | [] => none
  match l with
  | '-' :: r => (body r).map (fun rest => (Json.num, rest))
  | r => (body r).map (fun rest => (Json.num, rest))

mutual

/-- A JSON value; the input is assumed whitespace-skipped. -/
def jValue : Nat → List Char → Option (Json × List Char)
  | 0, _ => none
  | fuel + 1, l =>
    match l with
    | 'n' :: 'u' :: 'l' :: 'l' :: r => some (Json.null, r)
    | 't' :: 'r' :: 'u' :: 'e' :: r => some (Json.bool true, r)
    | 'f' :: 'a' :: 'l' :: 's' :: 'e' :: r => some (Json.bool false, r)
    | '"' :: r => (jStrBody (r.length + 1) r).map (fun p => (Json.str ⟨p.1⟩, p.2))
    | '[' :: r =>
      match jsonWs r with
      | ']' :: r2 => some (Json.arr [], r2)
      | r1 => (jElems fuel r1).map (fun p => (Json.arr p.1, p.2))
    | '{' :: r =>
      match jsonWs r with
      | '}' :: r2 => some (Json.obj [], r2)
      | r1 => (jMembers fuel r1).map (fun p => (Json.obj p.1, p.2))
    | _ => jNum l

/-- One-or-more array elements up to the closing bracket. -/
def jElems : Nat → List Char → Option (List Json × List Char)
  | 0, _ => none
  | fuel + 1, l =>
    (jValue fuel l).bind (fun p =>
      match jsonWs p.2 with
      | ',' :: r2 => (jElems fuel (jsonWs r2)).map (fun q => (p.1 :: q.1, q.2))
      | ']' :: r2 => some ([p.1], r2)
      | _ => none)

/-- One-or-more object members up to the closing brace. -/
def jMembers : Nat → List Char → Option (List (String × Json) × List Char)
  | 0, _ => none
  | fuel + 1, l =>
    match l with
    | '"' :: r =>
      (jStrBody (r.length + 1) r).bind (fun kp =>
        match jsonWs kp.2 with
        | ':' :: r2 =>
          (jValue fuel (jsonWs r2)).bind (fun p =>
            match jsonWs p.2 with
            | ',' :: r3 => (jMembers fuel (jsonWs r3)).map (fun q => ((⟨kp.1⟩, p.1) :: q.1, q.2))
            | '}' :: r3 => some ([(⟨kp.1⟩, p.1)], r3)
            | _ => none)
        | _ => none)
    | _ => none

end

/-- Model of `JSON.parse`: whitespace-skipped top-level value, then only
whitespace may remain.  `none` models a thrown `SyntaxError`. -/
def jsonParse (l : List Char) : Option Json :=
  let t := jsonWs l
  (jValue (2 * t.length + 4) t).bind (fun p =>
    if jsonWs p.2 = [] then some p.1 else none)

/-- Scanner state for the global regex `/'([^']+)'/g`: `none` when outside a
candidate match, `some acc` when after an opening quote with the (reversed)
innards seen so far.  A closing quote over an empty gap reopens (the JS
engine advances one position after a failed attempt at the first quote). -/
def qmAux : Option (List Char) → List Char → List (List Char)
  | _, [] => []
  | none, c :: rest =>
    if c = '\'' then qmAux (some []) rest else qmAux none rest
  | some acc, c :: rest =>
    if c = '\'' then
      if acc.isEmpty then qmAux (some []) rest
      else ('\'' :: (acc.reverse ++ ['\''])) :: qmAux none rest
    else qmAux (some (c :: acc)) rest

/-- Model of the global regex scan `trimmed.match(/'([^']+)'/g)`: all
non-overlapping `'...'` matches (with nonempty innards), left to right. -/
def quotedMatches (l : List Char) : List (List Char) :=
  qmAux none l

/-- `parseSubmoduleTitle` from the array-storing import variant
(`src/unnamed/part_001`): quoted-array literal via `JSON.parse`, with the
manual quoted-substring extraction as the catch-path fallback.  `none`
models the JS `undefined` result (no submodules). -/
def parseSubmoduleTitleArr (submoduleTitle : String) : Option (List String) :=
  let tr := jsTrimL submoduleTitle.data
  if tr = [] ∨ upperL tr = "NULL".data ∨ tr = "#NAME?".data then none
  else if tr = "[]".data then none
  else
    let jsonString := tr.map (fun c => if c = '\'' then '"' else c)
    match jsonParse jsonString with
    | some (Json.arr items) =>
      let filtered := items.filterMap (fun j =>
        match j with
        | Json.str t => if t != "" && jsTrim t != "" then some t else none
        | _ => none)
      if 0 < filtered.length then some filtered else none
    | some _ => none
    | none =>
      let ms := quotedMatches tr
      if 0 < ms.length then
        let items := (ms.map
          (fun m => (⟨jsTrimL (m.filter (fun c => c != '\''))⟩ : String))).filter
          (fun m => m != "")
        if 0 < items.length then some items else none
      else none

/-! ## SessionTemplateResolver — `getSessionsAndDays`
(`ScheduleBuilder.tsx`, lines 52–65) -/

structure TemplateSession where
  name : String
  startTime : String
  endTime : String
deriving DecidableEq, Repr

def FULL_DAY_SESSIONS : List TemplateSession :=
  [⟨"Session 1", "09:00", "11:00"⟩, ⟨"Session 2", "11:00", "14:00"⟩,
   ⟨"Session 3", "14:00", "16:00"⟩, ⟨"Session 4", "16:00", "18:00"⟩]

def HALF_DAY_SESSIONS : List TemplateSession :=
  [⟨"Session 1", "09:00", "11:00"⟩, ⟨"Session 2", "11:00", "14:00"⟩]

def HOUR_SESSIONS : List TemplateSession :=
  [⟨"Session 1", "09:00", "11:00"⟩, ⟨"Session 2", "11:00", "14:00"⟩]

inductive DurationUnit where
  | days : DurationUnit
  | hours : DurationUnit
  | half_day : DurationUnit
deriving DecidableEq, Repr

/-- JS `Math.round`: round half towards positive infinity. -/
def jsRound (q : ℚ) : Int := ⌊q + 1 / 2⌋

/-- `getSessionsAndDays` from `ScheduleBuilder.tsx`: which sessions a course
shows and how many days, from its duration value and unit. -/
def getSessionsAndDays (requiredDurationHours : ℚ) (durationUnit : DurationUnit) :
    List TemplateSession × Int :=
  match durationUnit with
  | .half_day => (HALF_DAY_SESSIONS, 1)
  | .days =>
    (FULL_DAY_SESSIONS, if 0 < requiredDurationHours then jsRound requiredDurationHours else 1)
  | .hours =>
    (HOUR_SESSIONS.take (if 2 < requiredDurationHours then 2 else 1), 1)

/-! ## ScheduleTransform — `groupScheduleBySession` / `flattenSchedule`
(`ScheduleBuilder.tsx`, lines 70–129)

The grouping key is the JS template literal `` `${day}-${startTime}` ``; the
JS `Map` is an insertion-ordered association list whose `set` replaces the
value in place when the key is present and appends otherwise. -/

/-- A JS field value for `module_title`/`submodules`, which legacy rows may
hold as a string, a JSON array of strings, or something else (`null`). -/
inductive JVal where
  | str (s : String) : JVal
  | arr (xs : List String) : JVal
  | null : JVal
deriving DecidableEq, Repr

/-- `typeof v === 'string'` -/
def JVal.isStr : JVal → Bool
  | .str _ => true
  | _ => false

/-- `Array.isArray(v)` -/
def JVal.isArr : JVal → Bool
  | .arr _ => true
  | _ => false

/-- `typeof v === 'string' ? v : ''` -/
def titleOf : JVal → String
  | .str s => s
  | _ => ""

/-- `Array.isArray(v) ? v : []` -/
def subsOf : JVal → List String
  | .arr xs => xs
  | _ => []

/-- A flat schedule item (`ScheduleItemData & {id, submodules}`). -/
structure ScheduleItem where
  id : String
  day_number : Nat
  start_time : String
  end_time : String
  module_title : JVal
  submodule_title : JVal
  duration_minutes : Int
  submodules : JVal
deriving DecidableEq, Repr

structure ModuleData where
  id : String
  moduleTitle : String
  submodules : List String
deriving DecidableEq, Repr

structure SessionData where
  dayNumber : Nat
  startTime : String
  endTime : String
  durationMinutes : Int
  modules : List ModuleData
deriving DecidableEq, Repr

/-- The grouping key `` `${day}-${startTime}` ``. -/
def mkKey (day : Nat) (startTime : String) : String :=
  Nat.repr day ++ "-" ++ startTime

/-- JS `Map.prototype.set`: replace in place when present, append otherwise. -/
def mapSet (m : List (String × SessionData)) (k : String) (v : SessionData) :
    List (String × SessionData) :=
  if m.any (fun kv => kv.1 = k) then
    m.map (fun kv => if kv.1 = k then (k, v) else kv)
  else m ++ [(k, v)]

/-- The `(day, session)` pairs visited by the initialization loops, in
order: days 1..daysCount crossed with the template sessions. -/
def templateSlots (sessions : List TemplateSession) (daysCount : Int) :
    List (Nat × TemplateSession) :=
  (List.range daysCount.toNat).flatMap (fun i => sessions.map (fun s => (i + 1, s)))

/-- The "Initialize all sessions" loop of `groupScheduleBySession`. -/
def initSessionMap (sessions : List TemplateSession) (daysCount : Int) :
    List (String × SessionData) :=
  (templateSlots sessions daysCount).foldl
    (fun m ds => mapSet m (mkKey ds.1 ds.2.startTime)
      ⟨ds.1, ds.2.startTime, ds.2.endTime, 120, []⟩) []

/-- Proof view of a run of `Map.set` calls: fold `mapSet` over a pair list. -/
def foldIns (m : List (String × SessionData)) (ps : List (String × SessionData)) :
    List (String × SessionData) :=
  ps.foldl (fun m p => mapSet m p.1 p.2) m

/-- The key/value pairs inserted by the initialization loops. -/
def slotPairs (sessions : List TemplateSession) (daysCount : Int) :
    List (String × SessionData) :=
  (templateSlots sessions daysCount).map
    (fun ds => (mkKey ds.1 ds.2.startTime,
      (⟨ds.1, ds.2.startTime, ds.2.endTime, 120, []⟩ : SessionData)))

/-- The module pushed for one schedule item.  The source falls back to a
fresh `module-${Date.now()}-${Math.random()}` id when `item.id` is falsy;
the fresh id is modelled by a fixed placeholder (module ids play no role in
any verified property). -/
def mkModule (item : ScheduleItem) : ModuleData :=
  ⟨if item.id = "" then "module-fresh" else item.id,
   titleOf item.module_title, subsOf item.submodules⟩

/-- The "Group existing schedule items" loop body: look the key up and, when
a session is present, push one module (entries with no matching session are
dropped). -/
def addItem (m : List (String × SessionData)) (item : ScheduleItem) :
    List (String × SessionData) :=
  m.map (fun kv =>
    if kv.1 = mkKey item.day_number item.start_time then
      (kv.1, { kv.2 with modules := kv.2.modules ++ [mkModule item] })
    else kv)

/-- `groupScheduleBySession` from `ScheduleBuilder.tsx`. -/
def groupScheduleBySession (sessions : List TemplateSession) (daysCount : Int)
    (scheduleItems : List ScheduleItem) : List (String × SessionData) :=
  scheduleItems.foldl addItem (initSessionMap sessions daysCount)

/-- `flattenSchedule` from `ScheduleBuilder.tsx`. -/
def flattenSchedule (m : List (String × SessionData)) : List ScheduleItem :=
  m.flatMap (fun kv =>
    kv.2.modules.map (fun md =>
      { id := md.id
        day_number := kv.2.dayNumber
        start_time := kv.2.startTime
        end_time := kv.2.endTime
        module_title := .str md.moduleTitle
        submodule_title := if 0 < md.submodules.length then .arr md.submodules else .null
        duration_minutes := kv.2.durationMinutes
        submodules := .arr md.submodules }))

/-- The observation tuple of the round-trip law:
`(dayNumber, startTime, moduleTitle, submodules)` with the same coercions
the grouping step applies. -/
def tupleOf (it : ScheduleItem) : Nat × String × String × List String :=
  (it.day_number, it.start_time, titleOf it.module_title, subsOf it.submodules)

/-- Whether an item's `(dayNumber, startTime)` matches a template slot:
day between 1 and daysCount, startTime among the template session starts. -/
def isValidSlot (sessions : List TemplateSession) (daysCount : Int)
    (it : ScheduleItem) : Bool :=
  decide (1 ≤ it.day_number) && decide ((it.day_number : Int) ≤ daysCount) &&
    decide (it.start_time ∈ sessions.map (fun s => s.startTime))

/-- The flattened multiset view of a grouped map: one observation tuple per
module, in bucket order. -/
def mapTuples (m : List (String × SessionData)) : List (Nat × String × String × List String) :=
  m.flatMap (fun kv =>
    kv.2.modules.map (fun md => (kv.2.dayNumber, kv.2.startTime, md.moduleTitle, md.submodules)))

/-! ## ScheduleImportReconciler — `importCourseSchedule`
(`import-course-schedule-production.ts`, lines 162–250), the skip-if-exists
variant, and `cleanAndImportCourseSchedule`
(`import-course-schedule-from-output.ts`, lines 85–233), the
delete-all-then-recreate variant.

The persistence engine is modelled as an in-memory store with a course-id
table and a schedule table; `create` appends.  For the delete+recreate
variant, the possibility that the store rejects a `create` (the `catch`
path) is modelled by a failure oracle indexed by row number. -/

/-- One raw CSV row (all fields arrive as strings from the CSV parser). -/
structure SchedRow where
  id : String
  course_id : String
  day_number : String
  start_time : String
  end_time : String
  module_title : String
  submodule_title : String
  duration_minutes : String
  created_at : String
deriving DecidableEq, Repr

/-- A persisted `courseSchedule` record.  `moduleTitle` is a JSON array in
the skip-if-exists variant and a plain string in the delete+recreate
variant, so it is held as a `JVal`; `durationMinutes` is `none` when the
raw calculator produced `NaN`.  `createdAtRaw` keeps the raw legacy text:
the source collapses unparseable dates to the current wall time, which no
verified property inspects. -/
structure SchedRecord where
  id : String
  courseId : String
  dayNumber : Int
  startTime : String
  endTime : String
  moduleTitle : JVal
  submoduleTitle : Option (List String)
  durationMinutes : Option Int
  createdAtRaw : String
deriving DecidableEq, Repr

structure Store where
  courses : List String
  schedules : List SchedRecord
deriving DecidableEq, Repr

inductive RowOutcome where
  | imported : RowOutcome
  | skipped : RowOutcome
deriving DecidableEq, Repr

structure Summary where
  success : Nat
  skipped : Nat
  errors : Nat
deriving DecidableEq, Repr

def findCourse (st : Store) (cid : String) : Bool :=
  st.courses.any (fun c => c = cid)

def findScheduleById (st : Store) (i : String) : Bool :=
  st.schedules.any (fun r => r.id = i)

/-- The raw-split duration calculator of the delete+recreate variants: no
normalization, `NaN` (`none`) when a time does not split into two numeric
components, 1440 added when negative, and no positivity fallback. -/
def calculateDurationMinutesRaw (startTime endTime : String) : Option Int :=
  let startTotal := destructTotal ((splitOnCharL ':' startTime.data).map jsNumberL)
  let endTotal := destructTotal ((splitOnCharL ':' endTime.data).map jsNumberL)
  let duration :=
    match endTotal, startTotal with
    | some e, some s => some (e - s)
    | _, _ => none
  if jsLtOpt duration 0 then duration.map (· + 1440) else duration

/-- The duration resolution of the skip-if-exists variant: prefer an explicit
positive integer, else derive from the raw times via `normalizeTime`. -/
def resolveDuration (row : SchedRow) : Int :=
  match jsParseInt row.duration_minutes with
  | some v => if v ≤ 0 then calculateDurationMinutes row.start_time row.end_time else v
  | none => calculateDurationMinutes row.start_time row.end_time

/-- One iteration of the skip-if-exists import loop, in source order:
missing `course_id`, unknown course, already-existing id, invalid
`day_number`, and empty module list each skip the row; otherwise a record is
created. -/
def importStep (st : Store) (row : SchedRow) : Store × RowOutcome :=
  if jsTrim row.course_id = "" then (st, .skipped)
  else if !(findCourse st (jsTrim row.course_id)) then (st, .skipped)
  else if findScheduleById st (jsTrim row.id) then (st, .skipped)
  else
    match jsParseInt row.day_number with
    | none => (st, .skipped)
    | some d =>
      if d < 1 then (st, .skipped)
      else
        let moduleTitleArray := parseModuleTitle row.module_title
        if moduleTitleArray = [] then (st, .skipped)
        else
          let submoduleTitleArray := parseSubmoduleTitle row.submodule_title
          let rec_ : SchedRecord :=
            { id := jsTrim row.id
              courseId := jsTrim row.course_id
              dayNumber := d
              startTime := normalizeTime row.start_time
              endTime := normalizeTime row.end_time
              moduleTitle := JVal.arr moduleTitleArray
              submoduleTitle :=
                if 0 < submoduleTitleArray.length then some submoduleTitleArray else none
              durationMinutes := some (resolveDuration row)
              createdAtRaw := row.created_at }
          ({ st with schedules := st.schedules ++ [rec_] }, .imported)

/-- One loop iteration with the summary accumulator threaded through. -/
def importAccStep (acc : Store × Summary) (row : SchedRow) : Store × Summary :=
  match importStep acc.1 row with
  | (st', RowOutcome.imported) => (st', { acc.2 with success := acc.2.success + 1 })
  | (st', RowOutcome.skipped) => (st', { acc.2 with skipped := acc.2.skipped + 1 })

/-- The whole skip-if-exists batch: rows strictly in order, accumulating the
summary (the in-model store never throws, so the error count stays 0). -/
def importCourseSchedule (rows : List SchedRow) (st : Store) : Store × Summary :=
  rows.foldl importAccStep (st, ⟨0, 0, 0⟩)

/-- The UUID shape check `/^[0-9a-f]{8}-[0-9a-f]{4}-[0-9a-f]{4}-[0-9a-f]{4}-[0-9a-f]{12}$/i`. -/
def isUuidSeg (l : List Char) : Bool :=
  l.all (fun c => c.isDigit || (97 ≤ c.toNat && c.toNat ≤ 102) || (65 ≤ c.toNat && c.toNat ≤ 70))

def isUuid (s : String) : Bool :=
  match splitOnCharL '-' s.data with
  | [a, b, c, d, e] =>
    a.length == 8 && b.length == 4 && c.length == 4 && d.length == 4 && e.length == 12 &&
      isUuidSeg a && isUuidSeg b && isUuidSeg c && isUuidSeg d && isUuidSeg e
  | _ => false

/-- `module_title` cleanup of the one-module-per-row variant: collapse
newline runs, then whitespace runs, then trim.  Collapsing `\n+` first and
`\s+` second is observationally just the `\s+` collapse plus trim. -/
def cwAux : Bool → List Char → List Char
  | _, [] => []
  | prevWs, c :: rest =>
    if c.isWhitespace then
      if prevWs then cwAux true rest else ' ' :: cwAux true rest
    else c :: cwAux false rest

def collapseWs (l : List Char) : List Char := cwAux false l

def cleanModuleTitle (s : String) : String :=
  ⟨jsTrimL (collapseWs s.data)⟩

/-- One iteration of the delete-then-recreate import loop
(`import-course-schedule-from-output.ts`): validation skips, then a create
that the store may reject (`canCreate` is the failure oracle for the
`catch` path, indexed by row position).  A missing or malformed row id lets
the store generate one, modelled by a fixed placeholder. -/
def cleanStep (canCreate : Nat → Bool) (idx : Nat) (acc : Store × Summary)
    (row : SchedRow) : Store × Summary :=
  if !(isUuid row.course_id) then (acc.1, { acc.2 with skipped := acc.2.skipped + 1 })
  else if jsTrim row.module_title = "" then (acc.1, { acc.2 with skipped := acc.2.skipped + 1 })
  else
    match jsParseInt row.day_number with
    | none => (acc.1, { acc.2 with skipped := acc.2.skipped + 1 })
    | some d =>
      if d < 1 then (acc.1, { acc.2 with skipped := acc.2.skipped + 1 })
      else if !(canCreate idx) then (acc.1, { acc.2 with errors := acc.2.errors + 1 })
      else
        let startTime := if jsTrim row.start_time = "" then "09:00" else jsTrim row.start_time
        let endTime := if jsTrim row.end_time = "" then "11:00" else jsTrim row.end_time
        let rec_ : SchedRecord :=
          { id := if isUuid (jsTrim row.id) then jsTrim row.id else "generated-id"
            courseId := row.course_id
            dayNumber := d
            startTime := startTime
            endTime := endTime
            moduleTitle := JVal.str (cleanModuleTitle row.module_title)
            submoduleTitle :=
              if parseSubmoduleTitle row.submodule_title = [] then none
              else some (parseSubmoduleTitle row.submodule_title)
            durationMinutes :=
              match jsParseInt row.duration_minutes with
              | some v => if v ≤ 0 then calculateDurationMinutesRaw startTime endTime else some v
              | none => calculateDurationMinutesRaw startTime endTime
            createdAtRaw := row.created_at }
        ({ acc.1 with schedules := acc.1.schedules ++ [rec_] },
          { acc.2 with success := acc.2.success + 1 })

/-- `cleanAndImportCourseSchedule`: `deleteMany({})` wipes the whole
schedule table up front, then rows are created one by one with per-row
`catch`; there is no transaction around the delete+recreate. -/
def cleanAndImportCourseSchedule (canCreate : Nat → Bool) (rows : List SchedRow)
    (st : Store) : Store × Summary :=
  let cleared : Store := { st with schedules := [] }
  ((List.range rows.length).zip rows).foldl
    (fun acc ir => cleanStep canCreate ir.1 acc ir.2)
    (cleared, ⟨0, 0, 0⟩)

/-! ## Supporting lemmas -/

theorem firstSome_eq_some {cands : List α} {f : α → Option β} {b : β}
    (h : firstSome cands f = some b) : ∃ a ∈ cands, f a = some b := by
  unfold firstSome at h
  rcases hh : (cands.filterMap f).head? with _ | ⟨x⟩
  · rw [hh] at h; cases h
  · rw [hh] at h
    cases h
    have hx : b ∈ cands.filterMap f := by
      cases hmem : cands.filterMap f with
      | nil => rw [hmem] at hh; cases hh
      | cons y ys => rw [hmem] at hh; cases hh; exact List.mem_cons_self ..
    rcases List.mem_filterMap.1 hx with ⟨a, ha, hfa⟩
    exact ⟨a, ha, hfa⟩

theorem digitChar_isDigit {n : Nat} (h : n < 10) : (Nat.digitChar n).isDigit = true := by
  interval_cases n <;> decide

theorem decDigits_ne_nil (n : Nat) : decDigits n ≠ [] := by
  unfold decDigits
  split <;> simp

theorem decDigits_all_digit (n : Nat) : ∀ c ∈ decDigits n, c.isDigit = true := by
  induction n using Nat.strong_induction_on with
  | _ n ih =>
    unfold decDigits
    split
    · next h =>
      intro c hc
      simp only [List.mem_singleton] at hc
      subst hc
      exact digitChar_isDigit h
    · next h =>
      intro c hc
      rcases List.mem_append.1 hc with h1 | h2
      · exact ih (n / 10) (Nat.div_lt_self (by omega) (by omega)) c h1
      · simp only [List.mem_singleton] at h2
        subst h2
        exact digitChar_isDigit (Nat.mod_lt _ (by omega))

theorem charVal_digitChar {n : Nat} (h : n < 10) : charVal (Nat.digitChar n) = n := by
  interval_cases n <;> decide

/-- `digitsVal` computed with an arbitrary accumulator. -/
theorem digitsVal_aux (n : Nat) :
    ∀ a : Nat, (decDigits n).foldl (fun a c => 10 * a + charVal c) a
      = a * 10 ^ (decDigits n).length + n := by
  induction n using Nat.strong_induction_on with
  | _ n ih =>
    intro a
    unfold decDigits
    split
    · next h =>
      simp [List.foldl, charVal_digitChar h]
      ring
    · next h =>
      have hlt : n / 10 < n := Nat.div_lt_self (by omega) (by omega)
      rw [List.foldl_append]
      rw [ih (n / 10) hlt a]
      simp only [List.foldl, List.length_append, List.length_singleton]
      rw [charVal_digitChar (Nat.mod_lt _ (by omega))]
      have : n = 10 * (n / 10) + n % 10 := (Nat.div_add_mod n 10).symm
      rw [pow_succ]
      nlinarith [Nat.div_add_mod n 10]

theorem digitsVal_decDigits (n : Nat) : digitsVal (decDigits n) = n := by
  have := digitsVal_aux n 0
  simpa [digitsVal] using this

/-- Fuel-irrelevance bridge from core's `Nat.toDigitsCore` to `decDigits`. -/
theorem toDigitsCore_eq_decDigits :
    ∀ (fuel n : Nat) (ds : List Char), n < fuel →
      Nat.toDigitsCore 10 fuel n ds = decDigits n ++ ds := by
  intro fuel
  induction fuel with
  | zero => intro n ds h; omega
  | succ fuel ih =>
    intro n ds h
    rw [Nat.toDigitsCore]
    split
    · next h10 =>
      have hn : n < 10 := by omega
      rw [decDigits]
      simp [hn, Nat.mod_eq_of_lt hn]
    · next h10 =>
      have hn : ¬ n < 10 := by
        intro hc
        exact h10 (Nat.div_eq_of_lt hc)
      have hlt : n / 10 < fuel := by
        have := Nat.div_lt_self (show 0 < n by omega) (show 1 < 10 by omega)
        omega
      rw [ih (n / 10) (Nat.digitChar (n % 10) :: ds) hlt]
      conv_rhs => rw [decDigits]
      simp [hn]

theorem repr_data (n : Nat) : (Nat.repr n).data = decDigits n := by
  show (List.asString (Nat.toDigits 10 n)).data = decDigits n
  rw [show (List.asString (Nat.toDigits 10 n)).data = Nat.toDigits 10 n from rfl]
  unfold Nat.toDigits
  rw [toDigitsCore_eq_decDigits (n + 1) n [] (by omega)]
  simp

theorem repr_data_ne_nil (n : Nat) : (Nat.repr n).data ≠ [] := by
  rw [repr_data]; exact decDigits_ne_nil n

theorem repr_data_all_digit (n : Nat) : ∀ c ∈ (Nat.repr n).data, c.isDigit = true := by
  rw [repr_data]; exact decDigits_all_digit n

theorem repr_injective {m n : Nat} (h : Nat.repr m = Nat.repr n) : m = n := by
  have hd : decDigits m = decDigits n := by
    rw [← repr_data, ← repr_data, h]
  have := digitsVal_decDigits m
  rw [hd, digitsVal_decDigits] at this
  omega

theorem digitsVal_repr (n : Nat) : digitsVal (Nat.repr n).data = n := by
  rw [repr_data]; exact digitsVal_decDigits n

theorem hourCands_spec (l : List Char) (p : List Char × List Char)
    (hp : p ∈ hourCands l) : p.1 ≠ [] ∧ ∀ c ∈ p.1, c.isDigit = true := by
  rcases l with _ | ⟨a, _ | ⟨b, r⟩⟩
  · simp [hourCands] at hp
  · simp only [hourCands] at hp
    split at hp
    · next ha =>
      simp only [List.mem_singleton] at hp
      subst hp
      simpa using ha
    · simp at hp
  · simp only [hourCands] at hp
    split at hp
    · next ha =>
      split at hp
      · next hb =>
        simp only [List.mem_cons, List.mem_singleton, List.not_mem_nil, or_false] at hp
        rcases hp with rfl | rfl
        · refine ⟨by simp, ?_⟩
          intro c hc
          rcases List.mem_cons.1 hc with rfl | hc2
          · exact ha
          · simp only [List.mem_singleton] at hc2
            subst hc2
            exact hb
        · simpa using ha
      · next hb =>
        simp only [List.mem_singleton] at hp
        subst hp
        simpa using ha
    · simp at hp

theorem minCands_spec (r : List Char) (p : Option (List Char) × List Char)
    (hp : p ∈ minCands r) (m : List Char) (hm : p.1 = some m) :
    m.length = 2 ∧ ∀ c ∈ m, c.isDigit = true := by
  rcases r with _ | ⟨a, _ | ⟨b, r'⟩⟩
  · simp [minCands] at hp
    rw [hp] at hm
    simp at hm
  · simp [minCands] at hp
    rw [hp] at hm
    simp at hm
  · simp only [minCands] at hp
    split at hp
    · next hdig =>
      simp only [List.mem_cons, List.mem_singleton, List.not_mem_nil, or_false] at hp
      rcases hp with rfl | rfl
      · simp only at hm
        cases hm
        simp only [Bool.and_eq_true] at hdig
        constructor
        · rfl
        · intro c hc
          rcases List.mem_cons.1 hc with rfl | hc2
          · exact hdig.1
          · simp only [List.mem_singleton] at hc2
            subst hc2
            exact hdig.2
      · simp at hm
    · simp only [List.mem_singleton] at hp
      subst hp
      simp at hm

theorem afterHours_spec (hd rest : List Char) (hd' : List Char)
    (mg : Option (List Char)) (pm : Bool)
    (h : afterHours hd rest = some (hd', mg, pm)) :
    hd' = hd ∧ ∀ m, mg = some m → m.length = 2 ∧ ∀ c ∈ m, c.isDigit = true := by
  unfold afterHours at h
  rcases firstSome_eq_some h with ⟨r1, _, h1⟩
  rcases firstSome_eq_some h1 with ⟨mgp, hmgp, h2⟩
  rcases hpm : parseMeridiem (mgp.2.dropWhile Char.isWhitespace) with _ | b
  · rw [hpm] at h2
    cases h2
  · rw [hpm] at h2
    simp only [Option.map_some', Option.some.injEq, Prod.mk.injEq] at h2
    obtain ⟨rfl, rfl, rfl⟩ := h2
    exact ⟨rfl, fun m hm => minCands_spec r1 mgp hmgp m hm⟩

theorem matchMeridiemAt_spec (l : List Char) (hd : List Char)
    (mg : Option (List Char)) (pm : Bool)
    (h : matchMeridiemAt l = some (hd, mg, pm)) : GoodHM hd mg := by
  unfold matchMeridiemAt at h
  rcases firstSome_eq_some h with ⟨hc, hhc, h1⟩
  rcases afterHours_spec hc.1 hc.2 hd mg pm h1 with ⟨rfl, hmin⟩
  rcases hourCands_spec l hc hhc with ⟨hne, hdig⟩
  exact ⟨hne, hdig, hmin⟩

theorem scanMeridiem_spec (l : List Char) (hd : List Char)
    (mg : Option (List Char)) (pm : Bool)
    (h : scanMeridiem l = some (hd, mg, pm)) : GoodHM hd mg := by
  induction l with
  | nil => simp [scanMeridiem] at h
  | cons c rest ih =>
    unfold scanMeridiem at h
    rcases hm : matchMeridiemAt (c :: rest) with _ | v
    · rw [hm] at h
      simp only [Option.none_orElse] at h
      exact ih h
    · rw [hm] at h
      simp only [Option.some_orElse] at h
      cases h
      exact matchMeridiemAt_spec (c :: rest) hd mg pm hm

theorem matchSimpleAt_spec (l : List Char) (hd mns : List Char)
    (h : matchSimpleAt l = some (hd, mns)) : GoodHM hd (some mns) := by
  unfold matchSimpleAt at h
  rcases firstSome_eq_some h with ⟨hc, hhc, h1⟩
  rcases hourCands_spec l hc hhc with ⟨hne, hdig⟩
  revert h1
  split
  · next a b rest =>
    intro h1
    split at h1
    · next hab =>
      simp only [Option.some.injEq, Prod.mk.injEq] at h1
      obtain ⟨rfl, rfl⟩ := h1
      simp only [Bool.and_eq_true] at hab
      refine ⟨hne, hdig, ?_⟩
      intro m hm
      cases hm
      refine ⟨rfl, ?_⟩
      intro c hc2
      rcases List.mem_cons.1 hc2 with rfl | hc3
      · exact hab.1
      · simp only [List.mem_singleton] at hc3
        subst hc3
        exact hab.2
    · simp at h1
  · intro h1
    simp at h1

theorem scanSimple_spec (l : List Char) (hd mns : List Char)
    (h : scanSimple l = some (hd, mns)) : GoodHM hd (some mns) := by
  induction l with
  | nil => simp [scanSimple] at h
  | cons c rest ih =>
    unfold scanSimple at h
    rcases hm : matchSimpleAt (c :: rest) with _ | v
    · rw [hm] at h
      simp only [Option.none_orElse] at h
      exact ih h
    · rw [hm] at h
      simp only [Option.some_orElse] at h
      cases h
      exact matchSimpleAt_spec (c :: rest) hd mns hm

theorem padStart2L_all_digit {l : List Char} (h : ∀ c ∈ l, c.isDigit = true) :
    ∀ c ∈ padStart2L l, c.isDigit = true := by
  unfold padStart2L
  split
  · intro c hc
    rcases List.mem_append.1 hc with h1 | h2
    · rcases List.eq_of_mem_replicate h1 with rfl
      decide
    · exact h c h2
  · exact h

theorem padStart2L_ne_nil {l : List Char} (h : l ≠ []) : padStart2L l ≠ [] := by
  unfold padStart2L
  split
  · simp [h]
  · exact h

theorem padStart2L_of_len2 {l : List Char} (h : l.length = 2) : padStart2L l = l := by
  unfold padStart2L
  rw [h]
  simp

/-- Every output of `normalizeTime` is a nonempty digit run, a colon, and
exactly two digits. -/
theorem normalizeTime_shape (s : String) :
    ∃ hs ms : List Char, (normalizeTime s).data = hs ++ ':' :: ms ∧
      hs ≠ [] ∧ (∀ c ∈ hs, c.isDigit = true) ∧
      ms.length = 2 ∧ (∀ c ∈ ms, c.isDigit = true) := by
  have hdef : ∀ (h : Nat) (m : List Char), m.length = 2 → (∀ c ∈ m, c.isDigit = true) →
      ∃ hs ms : List Char, (fmtHM h m).data = hs ++ ':' :: ms ∧
        hs ≠ [] ∧ (∀ c ∈ hs, c.isDigit = true) ∧
        ms.length = 2 ∧ (∀ c ∈ ms, c.isDigit = true) := by
    intro h m hlen hdig
    refine ⟨padStart2L (Nat.repr h).data, padStart2L m, rfl, ?_, ?_, ?_, ?_⟩
    · exact padStart2L_ne_nil (repr_data_ne_nil h)
    · exact padStart2L_all_digit (repr_data_all_digit h)
    · rw [padStart2L_of_len2 hlen, hlen]
    · exact padStart2L_all_digit hdig
  have hdefault : ∃ hs ms : List Char, ("09:00" : String).data = hs ++ ':' :: ms ∧
      hs ≠ [] ∧ (∀ c ∈ hs, c.isDigit = true) ∧
      ms.length = 2 ∧ (∀ c ∈ ms, c.isDigit = true) := by
    exact ⟨['0', '9'], ['0', '0'], by decide, by decide, by decide, by decide, by decide⟩
  simp only [normalizeTime]
  split
  · exact hdefault
  · rcases hscan : scanMeridiem ((jsTrimL s.data).map (fun c => if c = '.' then ':' else c))
      with _ | ⟨hd, mg, isPM⟩
    · rcases hsimp : scanSimple ((jsTrimL s.data).map (fun c => if c = '.' then ':' else c))
        with _ | ⟨hd, mns⟩
      · simp only [hscan, hsimp]
        exact hdefault
      · simp only [hscan, hsimp]
        rcases scanSimple_spec _ hd mns hsimp with ⟨_, _, hmin⟩
        rcases hmin mns rfl with ⟨hlen, hdig⟩
        exact hdef _ mns hlen hdig
    · simp only [hscan]
      rcases scanMeridiem_spec _ hd mg isPM hscan with ⟨_, _, hmin⟩
      rcases hmg : mg with _ | m
      · simp only [Option.getD_none]
        exact hdef _ ['0', '0'] (by decide) (by decide)
      · simp only [Option.getD_some]
        rcases hmin m hmg with ⟨hlen, hdig⟩
        exact hdef _ m hlen hdig


/-! ## Trimming and digit-string lemmas -/

theorem dropWhile_head_not {p : Char → Bool} {l : List Char} {c : Char} {cs : List Char}
    (h : l.dropWhile p = c :: cs) : p c = false := by
  induction l with
  | nil => simp at h
  | cons a t ih =>
    rw [List.dropWhile_cons] at h
    split at h
    · exact ih h
    · next hpc =>
      cases h
      simpa using hpc

theorem dropWhile_of_head_not {p : Char → Bool} {c : Char} {cs : List Char}
    (h : p c = false) : (c :: cs).dropWhile p = c :: cs := by
  simp [List.dropWhile_cons, h]

theorem dropTrailing_shape (p : Char → Bool) (c : Char) (cs : List Char) :
    dropTrailing p (c :: cs) = [] ∨ ∃ r, dropTrailing p (c :: cs) = c :: r := by
  simp only [dropTrailing]
  split
  · exact Or.inl rfl
  · exact Or.inr ⟨_, rfl⟩

theorem dropTrailing_idem (p : Char → Bool) (l : List Char) :
    dropTrailing p (dropTrailing p l) = dropTrailing p l := by
  induction l with
  | nil => simp [dropTrailing]
  | cons c cs ih =>
    simp only [dropTrailing]
    split
    · simp [dropTrailing]
    · next h =>
      simp only [dropTrailing, ih]
      rw [if_neg]
      intro hc
      exact h hc

theorem dropWhile_dropTrailing_dropWhile (p : Char → Bool) (l : List Char) :
    (dropTrailing p (l.dropWhile p)).dropWhile p = dropTrailing p (l.dropWhile p) := by
  rcases hm : l.dropWhile p with _ | ⟨c, cs⟩
  · simp [dropTrailing]
  · have hpc : p c = false := dropWhile_head_not hm
    rcases dropTrailing_shape p c cs with h0 | ⟨r, hr⟩
    · rw [h0]
      simp
    · rw [hr]
      exact dropWhile_of_head_not hpc

theorem jsTrimL_idem (l : List Char) : jsTrimL (jsTrimL l) = jsTrimL l := by
  unfold jsTrimL
  rw [dropWhile_dropTrailing_dropWhile, dropTrailing_idem]

theorem jsTrim_idem (s : String) : jsTrim (jsTrim s) = jsTrim s := by
  unfold jsTrim
  rw [show (String.mk (jsTrimL s.data)).data = jsTrimL s.data from rfl, jsTrimL_idem]

theorem dropWhile_eq_self_of_all {p : Char → Bool} {l : List Char}
    (h : ∀ c ∈ l, p c = false) : l.dropWhile p = l := by
  cases l with
  | nil => rfl
  | cons c cs => exact dropWhile_of_head_not (h c (by simp))

theorem dropTrailing_eq_self_of_all {p : Char → Bool} {l : List Char}
    (h : ∀ c ∈ l, p c = false) : dropTrailing p l = l := by
  induction l with
  | nil => rfl
  | cons c cs ih =>
    simp only [dropTrailing]
    rw [ih (fun d hd => h d (by simp [hd]))]
    rw [if_neg]
    simp [h c (by simp)]

theorem digit_not_ws {c : Char} (h : c.isDigit = true) : c.isWhitespace = false := by
  by_contra hws
  simp only [Bool.not_eq_false] at hws
  have hcs : ((c = ' ' ∨ c = '\t') ∨ c = '\x0d') ∨ c = '\n' := by
    simpa [Char.isWhitespace] using hws
  rcases hcs with ((rfl | rfl) | rfl) | rfl <;> simp at h

theorem jsTrimL_of_all_digit {l : List Char} (h : ∀ c ∈ l, c.isDigit = true) :
    jsTrimL l = l := by
  unfold jsTrimL
  rw [dropWhile_eq_self_of_all (fun c hc => digit_not_ws (h c hc)),
    dropTrailing_eq_self_of_all (fun c hc => digit_not_ws (h c hc))]

theorem jsNumberL_digits {l : List Char} (hne : l ≠ [])
    (h : ∀ c ∈ l, c.isDigit = true) : jsNumberL l = some (digitsVal l) := by
  simp only [jsNumberL, jsTrimL_of_all_digit h]
  rw [if_neg hne, if_pos (by simpa [List.all_eq_true] using h)]

theorem splitOnCharL_ne_nil (sep : Char) (l : List Char) : splitOnCharL sep l ≠ [] := by
  cases l with
  | nil => simp [splitOnCharL]
  | cons c cs =>
    simp only [splitOnCharL]
    split
    · simp
    · split <;> simp

theorem splitOnCharL_of_not_mem {sep : Char} {l : List Char} (h : sep ∉ l) :
    splitOnCharL sep l = [l] := by
  induction l with
  | nil => rfl
  | cons c cs ih =>
    have hcs : sep ∉ cs := fun hx => h (by simp [hx])
    have hc : c ≠ sep := fun hx => h (by simp [hx])
    simp only [splitOnCharL, ih hcs]
    rw [if_neg hc]

theorem splitOnCharL_append {sep : Char} {a b : List Char} (h : sep ∉ a) :
    splitOnCharL sep (a ++ sep :: b) = a :: splitOnCharL sep b := by
  induction a with
  | nil =>
    simp only [List.nil_append, splitOnCharL]
    rcases hb : splitOnCharL sep b with _ | ⟨g, gs⟩
    · exact absurd hb (splitOnCharL_ne_nil sep b)
    · simp
  | cons c cs ih =>
    have hcs : sep ∉ cs := fun hx => h (by simp [hx])
    have hc : c ≠ sep := fun hx => h (by simp [hx])
    simp only [List.cons_append, splitOnCharL, List.append_eq]
    rw [ih hcs]
    simp [hc]

theorem digit_ne_colon {c : Char} (h : c.isDigit = true) : c ≠ ':' := by
  intro hc
  subst hc
  simp at h

/-! ## `calculateDurationMinutes`: every normalized time parses -/

theorem normalizeTime_parts (s : String) :
    ∃ H M : Nat, (splitOnCharL ':' (normalizeTime s).data).map jsNumberL
      = [some H, some M] := by
  rcases normalizeTime_shape s with ⟨hs, ms, hdata, hne, hdig, hlen, hmdig⟩
  have hns : ':' ∉ hs := fun hmem => by
    have := hdig _ hmem
    simp at this
  have hms : ':' ∉ ms := fun hmem => by
    have := hmdig _ hmem
    simp at this
  have hmne : ms ≠ [] := by
    intro hx
    rw [hx] at hlen
    simp at hlen
  rw [hdata, splitOnCharL_append hns, splitOnCharL_of_not_mem hms]
  refine ⟨digitsVal hs, digitsVal ms, ?_⟩
  simp [jsNumberL_digits hne hdig, jsNumberL_digits hmne hmdig]

theorem minutes_norm_eq (s : String) :
    minutesSinceMidnight (normalizeTime s) = some (normMinutes s) ∧
    destructTotal ((splitOnCharL ':' (normalizeTime s).data).map jsNumberL)
      = some (normMinutes s) := by
  rcases normalizeTime_parts s with ⟨H, M, hp⟩
  have h1 : minutesSinceMidnight (normalizeTime s) = some ((H : Int) * 60 + M) := by
    unfold minutesSinceMidnight
    rw [hp]
  have h2 : normMinutes s = (H : Int) * 60 + M := by
    unfold normMinutes
    rw [h1]
    rfl
  refine ⟨by rw [h1, h2], ?_⟩
  rw [hp, h2]
  rfl

/-! ## ListFieldNormalizer output lemmas -/

theorem string_mk_data (l : List Char) : (String.mk l).data = l := rfl

theorem parseModuleTitle_mem {s x : String} (hx : x ∈ parseModuleTitle s) :
    jsTrim x = x ∧ x ≠ "" := by
  unfold parseModuleTitle at hx
  split at hx
  · simp at hx
  · rcases List.mem_filter.1 hx with ⟨hmem, hne⟩
    rcases List.mem_map.1 hmem with ⟨seg, _, rfl⟩
    refine ⟨?_, by simpa using hne⟩
    unfold jsTrim
    rw [string_mk_data, jsTrimL_idem]

theorem parseSubmoduleTitle_mem {s x : String} (hx : x ∈ parseSubmoduleTitle s) :
    jsTrim x = x ∧ x ≠ "" := by
  unfold parseSubmoduleTitle at hx
  split at hx
  · simp at hx
  · rcases List.mem_filter.1 hx with ⟨hmem, hne⟩
    rcases List.mem_map.1 hmem with ⟨line, _, rfl⟩
    refine ⟨?_, by simpa using hne⟩
    unfold jsTrim
    rw [string_mk_data, jsTrimL_idem]

theorem parseSubmoduleTitleArr_some {s : String} {l : List String}
    (h : parseSubmoduleTitleArr s = some l) :
    l ≠ [] ∧ ∀ x ∈ l, jsTrim x ≠ "" := by
  simp only [parseSubmoduleTitleArr] at h
  split at h
  · cases h
  · split at h
    · cases h
    · split at h
      · next items heq =>
        split at h
        · next hlen =>
          cases h
          constructor
          · intro hnil
            rw [hnil] at hlen
            simp at hlen
          · intro x hx
            rcases List.mem_filterMap.1 hx with ⟨j, _, hj⟩
            revert hj
            match j with
            | Json.str t =>
              simp only
              split
              · next hcond =>
                intro hj
                cases hj
                simp only [Bool.and_eq_true, bne_iff_ne, ne_eq] at hcond
                exact hcond.2
              · intro hj
                cases hj
            | Json.null => intro hj; cases hj
            | Json.bool b => intro hj; cases hj
            | Json.num => intro hj; cases hj
            | Json.arr xs => intro hj; cases hj
            | Json.obj fs => intro hj; cases hj
        · cases h
      · cases h
      · split at h
        · split at h
          · next hlen =>
            cases h
            constructor
            · intro hnil
              rw [hnil] at hlen
              simp at hlen
            · intro x hx
              rcases List.mem_filter.1 hx with ⟨hmem, hne⟩
              rcases List.mem_map.1 hmem with ⟨m, _, rfl⟩
              have hidem : jsTrim (⟨jsTrimL (m.filter (fun c => c != '\''))⟩ : String)
                  = ⟨jsTrimL (m.filter (fun c => c != '\''))⟩ := by
                unfold jsTrim
                rw [string_mk_data, jsTrimL_idem]
              rw [hidem]
              simpa using hne
          · cases h
        · cases h

/-! ## Claim theorems (C3–C7, C9) -/

/-- **C3** (code_bug evidence): `normalizeTime` rewrites every dot to a colon
before the meridiem regex runs, so `"p.m"` becomes `"p:m"` and the meridiem
branch never fires for dotted markers; the plain `HH:MM` fallback then
matches `"2:00"`, giving `"02:00"` where the function's own documentation
promises `"14:00"`.  The other two documented examples do hold. -/
theorem normalizeTime_meridiem_dot_bug :
    normalizeTime "2.00 p.m" = "02:00" ∧
    normalizeTime "9:00 a.m" = "09:00" ∧
    normalizeTime "" = "09:00" ∧
    normalizeTime "2.00 p.m" ≠ "14:00" := by
  refine ⟨by decide, by decide, by decide, by decide⟩

/-- **C4** (counterexample): at equal times the claim's contract gives 0
(end minus start, no midnight adjustment), but the code returns the 120
fallback for every non-positive adjusted difference, not only on parse
failure. -/
theorem calculateDurationMinutes_equal_times_counterexample :
    calculateDurationMinutes "09:00" "09:00" = 120 ∧
    durationSpecC4 "09:00" "09:00" = 0 ∧
    calculateDurationMinutes "09:00" "09:00" ≠ durationSpecC4 "09:00" "09:00" := by
  refine ⟨by decide, by decide, by decide⟩

/-- **C4** (amended): `calculateDurationMinutes` first normalizes both
arguments (so they always parse into two numeric components and the
parse-failure fallback is unreachable), then returns end − start with 1440
added when the end is earlier, except that any non-positive adjusted
difference yields the fixed fallback 120; the two documented examples hold. -/
theorem calculateDurationMinutes_amended :
    (∀ s e : String, calculateDurationMinutes s e = amendedDuration s e) ∧
    calculateDurationMinutes "09:00" "11:00" = 120 ∧
    calculateDurationMinutes "23:00" "01:00" = 120 := by
  refine ⟨?_, by decide, by decide⟩
  intro s e
  obtain ⟨-, hS⟩ := minutes_norm_eq s
  obtain ⟨-, hE⟩ := minutes_norm_eq e
  simp only [calculateDurationMinutes, amendedDuration, hS, hE, jsLtOpt]
  by_cases h : normMinutes e - normMinutes s < 0
  · have h2 : normMinutes e < normMinutes s := by omega
    simp [h, h2]
  · have h2 : ¬ (normMinutes e < normMinutes s) := by omega
    simp [h, h2]

/-- **C5** (counterexample): the module-title parser splits on `|` only; a
single-quoted array literal passes through as one (trimmed) segment instead
of being parsed into its elements. -/
theorem parseModuleTitle_array_literal_counterexample :
    parseModuleTitle "['X', 'Y']" = ["['X', 'Y']"] ∧
    parseModuleTitle "['X', 'Y']" ≠ ["X", "Y"] := by
  refine ⟨by decide, by decide⟩

/-- **C5** (amended): the quoted-array-literal recognizer lives in the
submodule parser of the array-storing import variant: it rewrites single
quotes to double quotes and JSON-parses, yielding the element list; `"[]"`
and a parse result that is not a list yield the empty result (`none`, the
JS `undefined`); a thrown parse with no quoted substrings also yields the
empty result. -/
theorem parseSubmoduleTitleArr_array_literal :
    parseSubmoduleTitleArr "['X', 'Y']" = some ["X", "Y"] ∧
    parseSubmoduleTitleArr "[]" = none ∧
    parseSubmoduleTitleArr "'hello'" = none ∧
    parseSubmoduleTitleArr "[truncated" = none := by
  refine ⟨by decide, by decide, by decide, by decide⟩

/-- **C6** (counterexample): elements taken from a parsed quoted-array
literal are kept verbatim — `"[' X ']"` yields the untrimmed `" X "` — so
the parsers do not always return *trimmed* strings as claimed. -/
theorem parseSubmoduleTitleArr_untrimmed_counterexample :
    parseSubmoduleTitleArr "[' X ']" = some [" X "] ∧ jsTrim " X " ≠ " X " := by
  refine ⟨by decide, by decide⟩

/-- **C6** (amended): all three parsers are total and never return blank
items: the pipe and bullet parsers return trimmed nonempty strings; the
quoted-array parser returns a nonempty list of strings that are nonblank
after trimming but are kept verbatim (untrimmed) on the JSON path; when
structured parsing fails the single-quoted substrings are extracted
(trimmed), and no quoted substrings give the empty result. -/
theorem listFieldNormalizer_total_nonblank :
    (∀ s : String, ∀ x ∈ parseModuleTitle s, jsTrim x = x ∧ x ≠ "") ∧
    (∀ s : String, ∀ x ∈ parseSubmoduleTitle s, jsTrim x = x ∧ x ≠ "") ∧
    (∀ (s : String) (l : List String), parseSubmoduleTitleArr s = some l →
      l ≠ [] ∧ ∀ x ∈ l, jsTrim x ≠ "") ∧
    parseSubmoduleTitleArr "junk 'A' and ' B '" = some ["A", "B"] ∧
    parseSubmoduleTitleArr "no quoted items" = none := by
  refine ⟨?_, ?_, ?_, by decide, by decide⟩
  · intro s x hx
    exact parseModuleTitle_mem hx
  · intro s x hx
    exact parseSubmoduleTitle_mem hx
  · intro s l h
    exact parseSubmoduleTitleArr_some h

/-- Witness for `listFieldNormalizer_total_nonblank` at a concrete input. -/
theorem listFieldNormalizer_total_nonblank_witness :
    "Intro" ∈ parseModuleTitle "Intro | Advanced | " ∧
      (jsTrim "Intro" = "Intro" ∧ "Intro" ≠ "") :=
  ⟨by decide, listFieldNormalizer_total_nonblank.1 "Intro | Advanced | " "Intro" (by decide)⟩

/-- **C7** (counterexample): for unit `days` the code computes
`v > 0 ? Math.round(v) : 1` — there is no clamp to a minimum of 1 — so a
positive duration below one half yields a day count of 0, contradicting the
claimed "minimum 1". -/
theorem getSessionsAndDays_min1_counterexample :
    (getSessionsAndDays (3 / 10 : ℚ) DurationUnit.days).2 = 0 ∧
    ¬ (1 ≤ (getSessionsAndDays (3 / 10 : ℚ) DurationUnit.days).2) := by
  have h0 : (0 : ℚ) < 3 / 10 := by norm_num
  have hr : jsRound (3 / 10 : ℚ) = 0 := by
    unfold jsRound
    rw [show (3 / 10 + 1 / 2 : ℚ) = 4 / 5 by norm_num]
    rw [Int.floor_eq_zero_iff]
    constructor <;> norm_num
  constructor
  · simp [getSessionsAndDays, h0, hr]
  · simp [getSessionsAndDays, h0, hr]

/-- **C7** (amended): `half_day` always yields exactly the two sessions
09:00–11:00 and 11:00–14:00 with one day; `days` yields the four fixed
sessions with `dayCount = round(v)` when `v > 0` and `1` otherwise (no
minimum-1 clamp, so `0 < v < 1/2` gives 0 days); `hours` yields one session
when `v ≤ 2` and the two-session pair otherwise, with one day; in
particular `resolve(3, days).dayCount = 3` and `resolve(1.5, hours)` has
exactly one session. -/
theorem getSessionsAndDays_amended :
    (∀ v : ℚ, getSessionsAndDays v DurationUnit.half_day =
      ([⟨"Session 1", "09:00", "11:00"⟩, ⟨"Session 2", "11:00", "14:00"⟩], 1)) ∧
    (∀ v : ℚ, getSessionsAndDays v DurationUnit.days =
      ([⟨"Session 1", "09:00", "11:00"⟩, ⟨"Session 2", "11:00", "14:00"⟩,
        ⟨"Session 3", "14:00", "16:00"⟩, ⟨"Session 4", "16:00", "18:00"⟩],
        if 0 < v then round v else 1)) ∧
    (∀ v : ℚ, getSessionsAndDays v DurationUnit.hours =
      (if 2 < v then
        [⟨"Session 1", "09:00", "11:00"⟩, ⟨"Session 2", "11:00", "14:00"⟩]
       else [⟨"Session 1", "09:00", "11:00"⟩], 1)) ∧
    (getSessionsAndDays 3 DurationUnit.days).2 = 3 ∧
    ((getSessionsAndDays (3 / 2 : ℚ) DurationUnit.hours).1).length = 1 := by
  have hjr : ∀ v : ℚ, jsRound v = round v := by
    intro v
    rw [round_eq]
    rfl
  refine ⟨?_, ?_, ?_, ?_, ?_⟩
  · intro v
    simp [getSessionsAndDays, HALF_DAY_SESSIONS]
  · intro v
    simp only [getSessionsAndDays, FULL_DAY_SESSIONS, hjr]
  · intro v
    by_cases h : (2 : ℚ) < v
    · simp [getSessionsAndDays, HOUR_SESSIONS, h]
    · simp [getSessionsAndDays, HOUR_SESSIONS, h]
  · have h3 : (0 : ℚ) < 3 := by norm_num
    have hr : jsRound (3 : ℚ) = 3 := by
      unfold jsRound
      rw [show (3 + 1 / 2 : ℚ) = 7 / 2 by norm_num]
      rw [Int.floor_eq_iff]
      norm_num
    simp [getSessionsAndDays, h3, hr]
  · have h : ¬ ((2 : ℚ) < 3 / 2) := by norm_num
    simp [getSessionsAndDays, HOUR_SESSIONS, h]

/-- **C9** (code_bug evidence): the replace-save deletes every schedule row
up front and then runs per-row creates with a per-row `catch` and no
transaction; when the (single) create is rejected by the store, the run
ends with the prior schedule gone, zero rows recreated, and the failure
recorded only as a row error in the summary — not a rolled-back single
failed save. -/
theorem cleanAndImportCourseSchedule_not_atomic :
    (cleanAndImportCourseSchedule (fun _ => false)
        [⟨"", "aaaaaaaa-aaaa-aaaa-aaaa-aaaaaaaaaaaa", "1", "09:00", "11:00",
          "New module", "", "120", ""⟩]
        ⟨["c1"], [⟨"old", "c1", 1, "09:00", "11:00", JVal.arr ["Old"], none, some 120, ""⟩]⟩).1.schedules
      = [] ∧
    (cleanAndImportCourseSchedule (fun _ => false)
        [⟨"", "aaaaaaaa-aaaa-aaaa-aaaa-aaaaaaaaaaaa", "1", "09:00", "11:00",
          "New module", "", "120", ""⟩]
        ⟨["c1"], [⟨"old", "c1", 1, "09:00", "11:00", JVal.arr ["Old"], none, some 120, ""⟩]⟩).2.errors
      = 1 ∧
    (⟨["c1"], [⟨"old", "c1", 1, "09:00", "11:00", JVal.arr ["Old"], none, some 120, ""⟩]⟩ : Store).schedules
      ≠ [] := by
  refine ⟨by decide, by decide, by decide⟩

/-! ## Grouping-key injectivity -/

theorem append_cons_inj {c : Char} {l₁ l₂ r₁ r₂ : List Char}
    (h1 : c ∉ l₁) (h2 : c ∉ l₂) (h : l₁ ++ c :: r₁ = l₂ ++ c :: r₂) :
    l₁ = l₂ ∧ r₁ = r₂ := by
  induction l₁ generalizing l₂ with
  | nil =>
    cases l₂ with
    | nil => simpa using h
    | cons b bs =>
      simp only [List.nil_append, List.cons_append, List.cons.injEq] at h
      exact absurd (by simp [h.1] : c ∈ b :: bs) h2
  | cons a as ih =>
    cases l₂ with
    | nil =>
      simp only [List.cons_append, List.nil_append, List.cons.injEq] at h
      exact absurd (by simp [h.1] : c ∈ a :: as) h1
    | cons b bs =>
      simp only [List.cons_append, List.cons.injEq] at h
      obtain ⟨rfl, h'⟩ := h
      have hr := ih (fun hc => h1 (by simp [hc])) (fun hc => h2 (by simp [hc])) h'
      exact ⟨by rw [hr.1], hr.2⟩

theorem mkKey_inj {d₁ d₂ : Nat} {s₁ s₂ : String} (h : mkKey d₁ s₁ = mkKey d₂ s₂) :
    d₁ = d₂ ∧ s₁ = s₂ := by
  have hdata : (Nat.repr d₁).data ++ '-' :: s₁.data
      = (Nat.repr d₂).data ++ '-' :: s₂.data := by
    have hc := congrArg String.data h
    simpa [mkKey, String.data_append] using hc
  have hd1 : '-' ∉ (Nat.repr d₁).data := by
    intro hm
    have := repr_data_all_digit d₁ _ hm
    simp at this
  have hd2 : '-' ∉ (Nat.repr d₂).data := by
    intro hm
    have := repr_data_all_digit d₂ _ hm
    simp at this
  obtain ⟨he, hs⟩ := append_cons_inj hd1 hd2 hdata
  exact ⟨repr_injective (String.ext he), String.ext hs⟩

/-! ## The session map: `mapSet`, `foldIns`, `initSessionMap` -/

theorem mapSet_of_not_mem {m : List (String × SessionData)} {k : String}
    {v : SessionData} (h : ∀ kv ∈ m, kv.1 ≠ k) : mapSet m k v = m ++ [(k, v)] := by
  unfold mapSet
  rw [if_neg]
  simp only [List.any_eq_true, not_exists, not_and]
  intro kv hkv
  simp [h kv hkv]

theorem mapSet_fst_of_mem {m : List (String × SessionData)} {k : String}
    {v : SessionData} (h : (m.any fun kv => kv.1 = k) = true) :
    (mapSet m k v).map Prod.fst = m.map Prod.fst := by
  unfold mapSet
  rw [if_pos h, List.map_map]
  refine List.map_congr_left ?_
  intro kv _
  by_cases hk : kv.1 = k
  · simp [hk]
  · simp [hk]

theorem mapSet_fst (m : List (String × SessionData)) (k : String) (v : SessionData) :
    (mapSet m k v).map Prod.fst = m.map Prod.fst ∨
    (mapSet m k v).map Prod.fst = m.map Prod.fst ++ [k] := by
  rcases ha : m.any fun kv => kv.1 = k with _ | _
  · right
    have : ∀ kv ∈ m, kv.1 ≠ k := by
      intro kv hkv
      have := List.any_eq_false.1 ha kv hkv
      simpa using this
    rw [mapSet_of_not_mem this]
    simp
  · left
    exact mapSet_fst_of_mem ha

theorem mapSet_forall {P : String × SessionData → Prop}
    {m : List (String × SessionData)} {k : String} {v : SessionData}
    (hm : ∀ kv ∈ m, P kv) (hkv : P (k, v)) : ∀ kv ∈ mapSet m k v, P kv := by
  unfold mapSet
  split
  · intro kv hkv2
    rcases List.mem_map.1 hkv2 with ⟨kv0, hkv0, rfl⟩
    by_cases hk : kv0.1 = k
    · simpa [hk] using hkv
    · simpa [hk] using hm kv0 hkv0
  · intro kv hkv2
    rcases List.mem_append.1 hkv2 with hin | hone
    · exact hm kv hin
    · simp only [List.mem_singleton] at hone
      subst hone
      exact hkv

theorem mapSet_nodup {m : List (String × SessionData)} {k : String} {v : SessionData}
    (h : (m.map Prod.fst).Nodup) : ((mapSet m k v).map Prod.fst).Nodup := by
  rcases ha : m.any fun kv => kv.1 = k with _ | _
  · have hne : ∀ kv ∈ m, kv.1 ≠ k := by
      intro kv hkv
      have := List.any_eq_false.1 ha kv hkv
      simpa using this
    rw [mapSet_of_not_mem hne]
    rw [List.map_append]
    simp only [List.map_cons, List.map_nil]
    rw [List.nodup_append]
    refine ⟨h, by simp, ?_⟩
    intro x hx
    simp only [List.mem_singleton]
    rcases List.mem_map.1 hx with ⟨kv, hkv, rfl⟩
    exact fun hc => (hne kv hkv) (by simpa using hc)
  · rw [mapSet_fst_of_mem ha]
    exact h

theorem foldIns_forall {P : String × SessionData → Prop}
    (ps : List (String × SessionData)) :
    ∀ (m : List (String × SessionData)), (∀ kv ∈ m, P kv) → (∀ p ∈ ps, P p) →
      ∀ kv ∈ foldIns m ps, P kv := by
  induction ps with
  | nil => intro m hm _; exact hm
  | cons p ps ih =>
    intro m hm hp
    have h1 : ∀ kv ∈ mapSet m p.1 p.2, P kv :=
      mapSet_forall hm (by simpa using hp p (by simp))
    exact ih (mapSet m p.1 p.2) h1 (fun q hq => hp q (by simp [hq]))

theorem foldIns_nodup (ps : List (String × SessionData)) :
    ∀ (m : List (String × SessionData)), (m.map Prod.fst).Nodup →
      ((foldIns m ps).map Prod.fst).Nodup := by
  induction ps with
  | nil => intro m hm; exact hm
  | cons p ps ih =>
    intro m hm
    exact ih (mapSet m p.1 p.2) (mapSet_nodup hm)

theorem foldIns_keys_sub (ps : List (String × SessionData)) :
    ∀ (m : List (String × SessionData)) (k : String),
      k ∈ m.map Prod.fst → k ∈ (foldIns m ps).map Prod.fst := by
  induction ps with
  | nil => intro m k hk; exact hk
  | cons p ps ih =>
    intro m k hk
    refine ih (mapSet m p.1 p.2) k ?_
    rcases mapSet_fst m p.1 p.2 with he | he
    · rw [he]; exact hk
    · rw [he]; simp [hk]

theorem foldIns_keys_mem (ps : List (String × SessionData)) :
    ∀ (m : List (String × SessionData)) (k : String),
      k ∈ m.map Prod.fst ∨ k ∈ ps.map Prod.fst →
      k ∈ (foldIns m ps).map Prod.fst := by
  induction ps with
  | nil =>
    intro m k hk
    rcases hk with hk | hk
    · exact hk
    · simp at hk
  | cons p ps ih =>
    intro m k hk
    refine ih (mapSet m p.1 p.2) k ?_
    have hstep : ∀ k', k' ∈ m.map Prod.fst ∨ k' = p.1 →
        k' ∈ (mapSet m p.1 p.2).map Prod.fst := by
      intro k' hk'
      unfold mapSet
      split
      · next hany =>
        rw [List.map_map]
        rw [show (Prod.fst ∘ fun kv => if kv.1 = p.1 then (p.1, p.2) else kv)
            = Prod.fst from ?_]
        · rcases hk' with hk' | rfl
          · exact hk'
          · simp only [List.any_eq_true] at hany
            rcases hany with ⟨kv, hkv, hkeq⟩
            simp only [decide_eq_true_eq] at hkeq
            rw [← hkeq]
            exact List.mem_map.2 ⟨kv, hkv, rfl⟩
        · funext kv
          by_cases hk2 : kv.1 = p.1 <;> simp [hk2]
      · rcases hk' with hk' | rfl
        · simp [hk']
        · simp
    rcases hk with hk | hk
    · exact Or.inl (hstep k (Or.inl hk))
    · simp only [List.map_cons, List.mem_cons] at hk
      rcases hk with rfl | hk
      · exact Or.inl (hstep _ (Or.inr rfl))
      · exact Or.inr hk

theorem foldIns_fresh (ps : List (String × SessionData)) :
    ∀ (m : List (String × SessionData)), (ps.map Prod.fst).Nodup →
      (∀ p ∈ ps, p.1 ∉ m.map Prod.fst) → foldIns m ps = m ++ ps := by
  induction ps with
  | nil => intro m _ _; simp [foldIns]
  | cons p ps ih =>
    intro m hnd hdisj
    have hne : ∀ kv ∈ m, kv.1 ≠ p.1 := by
      intro kv hkv hc
      exact hdisj p (by simp) (by rw [← hc]; exact List.mem_map.2 ⟨kv, hkv, rfl⟩)
    have hstep : mapSet m p.1 p.2 = m ++ [p] := mapSet_of_not_mem hne
    rw [List.map_cons] at hnd
    obtain ⟨hhead, htail⟩ := List.nodup_cons.1 hnd
    have hrec : foldIns (mapSet m p.1 p.2) ps = mapSet m p.1 p.2 ++ ps := by
      refine ih (mapSet m p.1 p.2) htail ?_
      intro q hq
      rw [hstep]
      simp only [List.map_append, List.mem_append]
      rintro (hqm | hqp)
      · exact hdisj q (by simp [hq]) hqm
      · simp only [List.map_cons, List.map_nil, List.mem_singleton] at hqp
        exact hhead (by rw [← hqp]; exact List.mem_map.2 ⟨q, hq, rfl⟩)
    show List.foldl (fun m p => mapSet m p.1 p.2) m (p :: ps) = m ++ p :: ps
    simp only [List.foldl_cons]
    rw [show List.foldl (fun m p => mapSet m p.1 p.2) (mapSet m p.1 p.2) ps
        = foldIns (mapSet m p.1 p.2) ps from rfl]
    rw [hrec, hstep]
    simp

theorem templateSlots_mem {sessions : List TemplateSession} {daysCount : Int}
    {ds : Nat × TemplateSession} (h : ds ∈ templateSlots sessions daysCount) :
    1 ≤ ds.1 ∧ (ds.1 : Int) ≤ daysCount ∧ ds.2 ∈ sessions := by
  unfold templateSlots at h
  rcases List.mem_flatMap.1 h with ⟨i, hi, hmem⟩
  rcases List.mem_map.1 hmem with ⟨sess, hsess, rfl⟩
  rw [List.mem_range] at hi
  refine ⟨by omega, by omega, hsess⟩

theorem initSessionMap_eq (sessions : List TemplateSession) (daysCount : Int) :
    initSessionMap sessions daysCount = foldIns [] (slotPairs sessions daysCount) := by
  unfold initSessionMap foldIns slotPairs
  rw [List.foldl_map]

theorem slotPairs_forall (sessions : List TemplateSession) (daysCount : Int) :
    ∀ p ∈ slotPairs sessions daysCount,
      p.1 = mkKey p.2.dayNumber p.2.startTime ∧ p.2.modules = [] ∧
      1 ≤ p.2.dayNumber ∧ (p.2.dayNumber : Int) ≤ daysCount ∧
      p.2.startTime ∈ sessions.map (fun ses => ses.startTime) := by
  intro p hp
  rcases List.mem_map.1 hp with ⟨ds, hds, rfl⟩
  obtain ⟨h1, h2, h3⟩ := templateSlots_mem hds
  exact ⟨rfl, rfl, h1, h2, List.mem_map.2 ⟨ds.2, h3, rfl⟩⟩

theorem init_forall (sessions : List TemplateSession) (daysCount : Int) :
    ∀ kv ∈ initSessionMap sessions daysCount,
      kv.1 = mkKey kv.2.dayNumber kv.2.startTime ∧ kv.2.modules = [] ∧
      1 ≤ kv.2.dayNumber ∧ (kv.2.dayNumber : Int) ≤ daysCount ∧
      kv.2.startTime ∈ sessions.map (fun ses => ses.startTime) := by
  rw [initSessionMap_eq]
  exact foldIns_forall _ [] (by simp) (slotPairs_forall sessions daysCount)

theorem init_keys_nodup (sessions : List TemplateSession) (daysCount : Int) :
    ((initSessionMap sessions daysCount).map Prod.fst).Nodup := by
  rw [initSessionMap_eq]
  exact foldIns_nodup _ [] (by simp)

theorem init_mem_key (sessions : List TemplateSession) (daysCount : Int)
    {day : Nat} {st : String} (h1 : 1 ≤ day) (h2 : (day : Int) ≤ daysCount)
    (h3 : st ∈ sessions.map (fun ses => ses.startTime)) :
    mkKey day st ∈ (initSessionMap sessions daysCount).map Prod.fst := by
  rw [initSessionMap_eq]
  refine foldIns_keys_mem _ [] _ (Or.inr ?_)
  rcases List.mem_map.1 h3 with ⟨sess, hsess, rfl⟩
  have hslot : (day, sess) ∈ templateSlots sessions daysCount := by
    unfold templateSlots
    refine List.mem_flatMap.2 ⟨day - 1, ?_, ?_⟩
    · rw [List.mem_range]
      omega
    · refine List.mem_map.2 ⟨sess, hsess, ?_⟩
      have : day - 1 + 1 = day := by omega
      rw [this]
  refine List.mem_map.2 ⟨(mkKey day sess.startTime,
    (⟨day, sess.startTime, sess.endTime, 120, []⟩ : SessionData)), ?_, rfl⟩
  unfold slotPairs
  exact List.mem_map.2 ⟨(day, sess), hslot, rfl⟩

/-! ## `addItem` and the round-trip permutation -/

theorem addItem_fst (m : List (String × SessionData)) (it : ScheduleItem) :
    (addItem m it).map Prod.fst = m.map Prod.fst := by
  unfold addItem
  rw [List.map_map]
  refine List.map_congr_left ?_
  intro kv _
  by_cases hk : kv.1 = mkKey it.day_number it.start_time <;> simp [hk]

theorem addItem_pairs (m : List (String × SessionData)) (it : ScheduleItem) :
    (addItem m it).map (fun kv => (kv.2.dayNumber, kv.2.startTime))
      = m.map (fun kv => (kv.2.dayNumber, kv.2.startTime)) := by
  unfold addItem
  rw [List.map_map]
  refine List.map_congr_left ?_
  intro kv _
  by_cases hk : kv.1 = mkKey it.day_number it.start_time <;> simp [hk]

theorem addItem_forall (Q : String → Nat → String → Prop)
    {m : List (String × SessionData)} (it : ScheduleItem)
    (h : ∀ kv ∈ m, Q kv.1 kv.2.dayNumber kv.2.startTime) :
    ∀ kv ∈ addItem m it, Q kv.1 kv.2.dayNumber kv.2.startTime := by
  unfold addItem
  intro kv hkv
  rcases List.mem_map.1 hkv with ⟨kv0, h0, rfl⟩
  by_cases hk : kv0.1 = mkKey it.day_number it.start_time
  · simpa [hk] using h kv0 h0
  · simpa [hk] using h kv0 h0

theorem addItem_of_not_mem {m : List (String × SessionData)} {it : ScheduleItem}
    (h : ∀ kv ∈ m, kv.1 ≠ mkKey it.day_number it.start_time) : addItem m it = m := by
  unfold addItem
  have hcongr : ∀ kv ∈ m,
      (if kv.1 = mkKey it.day_number it.start_time
       then (kv.1, { kv.2 with modules := kv.2.modules ++ [mkModule it] })
       else kv) = id kv := by
    intro kv hkv
    simp [h kv hkv]
  rw [List.map_congr_left hcongr, List.map_id]

theorem perm_snoc_append {α : Type} (A B : List α) (t : α) :
    ((A ++ [t]) ++ B).Perm ((A ++ B) ++ [t]) := by
  rw [List.append_assoc, List.singleton_append]
  exact List.perm_middle.trans (List.perm_append_singleton _ _).symm

theorem mapTuples_cons (kv : String × SessionData) (m : List (String × SessionData)) :
    mapTuples (kv :: m)
      = kv.2.modules.map
          (fun md => (kv.2.dayNumber, kv.2.startTime, md.moduleTitle, md.submodules))
        ++ mapTuples m := rfl

theorem mapTuples_empty {m : List (String × SessionData)}
    (h : ∀ kv ∈ m, kv.2.modules = []) : mapTuples m = [] := by
  unfold mapTuples
  rw [List.flatMap_eq_nil_iff]
  intro kv hkv
  rw [h kv hkv]
  rfl

theorem addItem_tuples {m : List (String × SessionData)} {it : ScheduleItem}
    (hnd : (m.map Prod.fst).Nodup)
    (hinv : ∀ kv ∈ m, kv.1 = mkKey kv.2.dayNumber kv.2.startTime)
    (hmem : mkKey it.day_number it.start_time ∈ m.map Prod.fst) :
    (mapTuples (addItem m it)).Perm (mapTuples m ++ [tupleOf it]) := by
  induction m with
  | nil => simp at hmem
  | cons kv m' ih =>
    rw [List.map_cons] at hnd
    obtain ⟨hh, ht⟩ := List.nodup_cons.1 hnd
    have hcons : addItem (kv :: m') it
        = (if kv.1 = mkKey it.day_number it.start_time
           then (kv.1, { kv.2 with modules := kv.2.modules ++ [mkModule it] })
           else kv) :: addItem m' it := by
      unfold addItem
      rw [List.map_cons]
    by_cases hk : kv.1 = mkKey it.day_number it.start_time
    · have hm' : addItem m' it = m' := by
        refine addItem_of_not_mem ?_
        intro kv2 hkv2 hc
        exact hh (by rw [hk, ← hc]; exact List.mem_map.2 ⟨kv2, hkv2, rfl⟩)
      obtain ⟨hd, hs⟩ := mkKey_inj ((hinv kv (by simp)).symm.trans hk)
      rw [hcons, if_pos hk, hm']
      simp only [mapTuples_cons]
      rw [List.map_append]
      have hlast : [mkModule it].map
            (fun md => (kv.2.dayNumber, kv.2.startTime, md.moduleTitle, md.submodules))
          = [tupleOf it] := by
        simp only [List.map_cons, List.map_nil]
        unfold mkModule tupleOf
        rw [hd, hs]
      rw [hlast]
      simpa using perm_snoc_append
        (kv.2.modules.map
          (fun md => (kv.2.dayNumber, kv.2.startTime, md.moduleTitle, md.submodules)))
        (mapTuples m') (tupleOf it)
    · have hmem' : mkKey it.day_number it.start_time ∈ m'.map Prod.fst := by
        simp only [List.map_cons, List.mem_cons] at hmem
        rcases hmem with h | h
        · exact absurd h.symm hk
        · exact h
      have hperm := ih ht (fun kv2 h2 => hinv kv2 (by simp [h2])) hmem'
      rw [hcons, if_neg hk, mapTuples_cons, mapTuples_cons, List.append_assoc]
      exact List.Perm.append_left _ hperm

theorem foldl_addItem_tuples (items : List ScheduleItem) :
    ∀ m : List (String × SessionData), (m.map Prod.fst).Nodup →
      (∀ kv ∈ m, kv.1 = mkKey kv.2.dayNumber kv.2.startTime) →
      (∀ it ∈ items, mkKey it.day_number it.start_time ∈ m.map Prod.fst) →
      (mapTuples (items.foldl addItem m)).Perm (mapTuples m ++ items.map tupleOf) := by
  induction items with
  | nil =>
    intro m _ _ _
    simp
  | cons it its ih =>
    intro m hnd hinv hmem
    rw [List.foldl_cons]
    have hnd' : ((addItem m it).map Prod.fst).Nodup := by
      rw [addItem_fst]
      exact hnd
    have hinv' : ∀ kv ∈ addItem m it, kv.1 = mkKey kv.2.dayNumber kv.2.startTime :=
      addItem_forall (fun k d st => k = mkKey d st) it hinv
    have hmem' : ∀ it2 ∈ its, mkKey it2.day_number it2.start_time
        ∈ (addItem m it).map Prod.fst := by
      intro it2 h2
      rw [addItem_fst]
      exact hmem it2 (by simp [h2])
    have h1 := ih (addItem m it) hnd' hinv' hmem'
    have h2 := addItem_tuples hnd hinv (hmem it (by simp))
    refine h1.trans ?_
    refine (List.Perm.append_right (its.map tupleOf) h2).trans ?_
    rw [List.append_assoc]
    simp

theorem flatten_tuples (m : List (String × SessionData)) :
    (flattenSchedule m).map tupleOf = mapTuples m := by
  unfold flattenSchedule mapTuples
  rw [List.map_flatMap]
  refine congrArg _ ?_
  funext kv
  rw [List.map_map]
  rfl

theorem flatten_titles_str {m : List (String × SessionData)} :
    ∀ rec_ ∈ flattenSchedule m, ∃ str, rec_.module_title = JVal.str str := by
  intro rec_ hrec
  unfold flattenSchedule at hrec
  rcases List.mem_flatMap.1 hrec with ⟨kv, _, hmem⟩
  rcases List.mem_map.1 hmem with ⟨md, _, rfl⟩
  exact ⟨md.moduleTitle, rfl⟩

/-- The core round-trip permutation, with the grouping step's coercions
(`titleOf`/`subsOf`) applied to the input tuples; used by both the C1 and
C10 claims. -/
theorem group_flatten_perm (sessions : List TemplateSession) (daysCount : Int)
    (items : List ScheduleItem)
    (h : ∀ it ∈ items, isValidSlot sessions daysCount it = true) :
    ((flattenSchedule (groupScheduleBySession sessions daysCount items)).map
      tupleOf).Perm (items.map tupleOf) := by
  rw [flatten_tuples]
  unfold groupScheduleBySession
  have hinit := init_forall sessions daysCount
  have hperm := foldl_addItem_tuples items (initSessionMap sessions daysCount)
    (init_keys_nodup sessions daysCount)
    (fun kv hkv => (hinit kv hkv).1)
    ?_
  · have hzero : mapTuples (initSessionMap sessions daysCount) = [] :=
      mapTuples_empty (fun kv hkv => (hinit kv hkv).2.1)
    rw [hzero] at hperm
    simpa using hperm
  · intro it hit
    have hv := h it hit
    unfold isValidSlot at hv
    simp only [Bool.and_eq_true, decide_eq_true_eq, List.mem_map] at hv
    obtain ⟨⟨h1, h2⟩, sess, hsess, hst⟩ := hv
    exact init_mem_key sessions daysCount h1 h2
      (List.mem_map.2 ⟨sess, hsess, hst⟩)

/-! ## The template skeleton of the grouped map (C2 support) -/

theorem foldl_addItem_fst (items : List ScheduleItem) :
    ∀ m : List (String × SessionData),
      (items.foldl addItem m).map Prod.fst = m.map Prod.fst := by
  induction items with
  | nil => intro m; rfl
  | cons it its ih =>
    intro m
    rw [List.foldl_cons, ih (addItem m it), addItem_fst]

theorem foldl_addItem_pairs (items : List ScheduleItem) :
    ∀ m : List (String × SessionData),
      (items.foldl addItem m).map (fun kv => (kv.2.dayNumber, kv.2.startTime))
        = m.map (fun kv => (kv.2.dayNumber, kv.2.startTime)) := by
  induction items with
  | nil => intro m; rfl
  | cons it its ih =>
    intro m
    rw [List.foldl_cons, ih (addItem m it), addItem_pairs]

theorem sessions_start_nodup (v : ℚ) (u : DurationUnit) :
    (((getSessionsAndDays v u).1).map (fun s => s.startTime)).Nodup := by
  cases u with
  | half_day =>
    exact (by decide : ((HALF_DAY_SESSIONS).map (fun s => s.startTime)).Nodup)
  | days =>
    exact (by decide : ((FULL_DAY_SESSIONS).map (fun s => s.startTime)).Nodup)
  | hours =>
    by_cases h : (2 : ℚ) < v
    · simp only [getSessionsAndDays, if_pos h]
      decide
    · simp only [getSessionsAndDays, if_neg h]
      decide

theorem slotPairs_keys_nodup {sessions : List TemplateSession} (daysCount : Int)
    (h : (sessions.map (fun s => s.startTime)).Nodup) :
    ((slotPairs sessions daysCount).map Prod.fst).Nodup := by
  unfold slotPairs templateSlots
  rw [List.map_map]
  rw [show (Prod.fst ∘ fun ds : Nat × TemplateSession =>
      (mkKey ds.1 ds.2.startTime,
        (⟨ds.1, ds.2.startTime, ds.2.endTime, 120, []⟩ : SessionData)))
    = fun ds : Nat × TemplateSession => mkKey ds.1 ds.2.startTime from rfl]
  rw [List.map_flatMap]
  rw [List.nodup_flatMap]
  constructor
  · intro i _
    rw [List.map_map]
    rw [show ((fun ds : Nat × TemplateSession => mkKey ds.1 ds.2.startTime)
        ∘ fun s => (i + 1, s)) = fun s : TemplateSession => mkKey (i + 1) s.startTime
      from rfl]
    rw [show (fun s : TemplateSession => mkKey (i + 1) s.startTime)
        = (fun st => mkKey (i + 1) st) ∘ (fun s : TemplateSession => s.startTime)
      from rfl]
    rw [← List.map_map]
    refine List.Nodup.map ?_ h
    intro a b hab
    exact (mkKey_inj hab).2
  · refine List.Pairwise.imp ?_ (List.nodup_range daysCount.toNat)
    intro i j hij
    intro k hk1 hk2
    simp only [List.map_map] at hk1 hk2
    rcases List.mem_map.1 hk1 with ⟨s1, _, hkey1⟩
    rcases List.mem_map.1 hk2 with ⟨s2, _, hkey2⟩
    have : i + 1 = j + 1 := (mkKey_inj (hkey1.trans hkey2.symm)).1
    omega

theorem init_eq_slotPairs {sessions : List TemplateSession} (daysCount : Int)
    (h : (sessions.map (fun s => s.startTime)).Nodup) :
    initSessionMap sessions daysCount = slotPairs sessions daysCount := by
  rw [initSessionMap_eq]
  have := foldIns_fresh (slotPairs sessions daysCount) []
    (slotPairs_keys_nodup daysCount h) (by simp)
  simpa using this

theorem foldl_addItem_filter (sessions : List TemplateSession) (daysCount : Int)
    (items : List ScheduleItem) :
    ∀ m : List (String × SessionData),
      (∀ kv ∈ m, kv.1 = mkKey kv.2.dayNumber kv.2.startTime ∧
        1 ≤ kv.2.dayNumber ∧ (kv.2.dayNumber : Int) ≤ daysCount ∧
        kv.2.startTime ∈ sessions.map (fun s => s.startTime)) →
      items.foldl addItem m
        = (items.filter (isValidSlot sessions daysCount)).foldl addItem m := by
  induction items with
  | nil => intro m _; rfl
  | cons it its ih =>
    intro m hm
    rw [List.filter_cons]
    by_cases hv : isValidSlot sessions daysCount it = true
    · rw [if_pos hv]
      simp only [List.foldl_cons]
      exact ih (addItem m it)
        (addItem_forall (fun k d st => k = mkKey d st ∧ 1 ≤ d ∧ (d : Int) ≤ daysCount ∧
          st ∈ sessions.map (fun s => s.startTime)) it hm)
    · rw [if_neg hv]
      simp only [List.foldl_cons]
      have hno : addItem m it = m := by
        refine addItem_of_not_mem ?_
        intro kv hkv hc
        obtain ⟨hkey, h1, h2, h3⟩ := hm kv hkv
        obtain ⟨hdeq, hseq⟩ := mkKey_inj (hkey.symm.trans hc)
        refine hv ?_
        unfold isValidSlot
        simp only [Bool.and_eq_true, decide_eq_true_eq]
        rw [← hdeq, ← hseq]
        exact ⟨⟨h1, h2⟩, h3⟩
      rw [hno]
      exact ih m hm

/-! ## Claim theorems (C1, C2, C10) -/

/-- **C2**: for every duration value, unit and entry list, the grouped map
has exactly one session per template slot — the `(dayNumber, startTime)`
pairs of its buckets are exactly days 1..dayCount crossed with the template
session start times, in order, even for the empty entry list — its keys are
duplicate-free, and entries outside the template contribute nothing: the
grouped map of the input list equals the grouped map of the input list with
the off-template entries filtered out (they are silently dropped, not
reported). -/
theorem group_template_skeleton (v : ℚ) (u : DurationUnit) (items : List ScheduleItem) :
    ((groupScheduleBySession (getSessionsAndDays v u).1 (getSessionsAndDays v u).2
        items).map (fun kv => (kv.2.dayNumber, kv.2.startTime)))
      = (templateSlots (getSessionsAndDays v u).1 (getSessionsAndDays v u).2).map
          (fun ds => (ds.1, ds.2.startTime)) ∧
    (((groupScheduleBySession (getSessionsAndDays v u).1 (getSessionsAndDays v u).2
        items).map Prod.fst).Nodup) ∧
    groupScheduleBySession (getSessionsAndDays v u).1 (getSessionsAndDays v u).2 items
      = groupScheduleBySession (getSessionsAndDays v u).1 (getSessionsAndDays v u).2
          (items.filter
            (isValidSlot (getSessionsAndDays v u).1 (getSessionsAndDays v u).2)) := by
  refine ⟨?_, ?_, ?_⟩
  · unfold groupScheduleBySession
    rw [foldl_addItem_pairs]
    rw [init_eq_slotPairs _ (sessions_start_nodup v u)]
    unfold slotPairs
    rw [List.map_map]
    rfl
  · unfold groupScheduleBySession
    rw [foldl_addItem_fst]
    exact init_keys_nodup _ _
  · unfold groupScheduleBySession
    refine foldl_addItem_filter _ _ items _ ?_
    intro kv hkv
    obtain ⟨hkey, _, hrest⟩ := init_forall _ _ kv hkv
    exact ⟨hkey, hrest⟩

/-- **C1**: for every entry list whose entries are well-formed `ScheduleEntry`
records (string title, array submodule list) and whose `(dayNumber,
startTime)` pairs all match slots of the current template (days 1..dayCount
crossed with the template session start times), flattening the grouped
structure reproduces exactly the same multiset of `(dayNumber, startTime,
moduleTitle, submodules)` observation tuples as the input list. -/
theorem flatten_group_roundtrip (v : ℚ) (u : DurationUnit) (items : List ScheduleItem)
    (h : ∀ it ∈ items, (it.module_title).isStr = true ∧ (it.submodules).isArr = true ∧
      isValidSlot (getSessionsAndDays v u).1 (getSessionsAndDays v u).2 it = true) :
    ((flattenSchedule (groupScheduleBySession (getSessionsAndDays v u).1
        (getSessionsAndDays v u).2 items)).map tupleOf).Perm (items.map tupleOf) :=
  group_flatten_perm _ _ items (fun it hit => (h it hit).2.2)

/-- Witness for `flatten_group_roundtrip`: two sibling modules in the same
09:00 session of a one-day half-day template survive the round trip. -/
theorem flatten_group_roundtrip_witness :
    (∀ it ∈ [(⟨"a", 1, "09:00", "11:00", JVal.str "M1", JVal.null, 120,
          JVal.arr ["s1"]⟩ : ScheduleItem),
        ⟨"b", 1, "09:00", "11:00", JVal.str "M2", JVal.null, 120, JVal.arr []⟩],
      (it.module_title).isStr = true ∧ (it.submodules).isArr = true ∧
        isValidSlot (getSessionsAndDays 1 DurationUnit.half_day).1
          (getSessionsAndDays 1 DurationUnit.half_day).2 it = true) ∧
    ((flattenSchedule (groupScheduleBySession
        (getSessionsAndDays 1 DurationUnit.half_day).1
        (getSessionsAndDays 1 DurationUnit.half_day).2
        [⟨"a", 1, "09:00", "11:00", JVal.str "M1", JVal.null, 120, JVal.arr ["s1"]⟩,
         ⟨"b", 1, "09:00", "11:00", JVal.str "M2", JVal.null, 120,
          JVal.arr []⟩])).map tupleOf).Perm
      ([(⟨"a", 1, "09:00", "11:00", JVal.str "M1", JVal.null, 120,
          JVal.arr ["s1"]⟩ : ScheduleItem),
        ⟨"b", 1, "09:00", "11:00", JVal.str "M2", JVal.null, 120,
          JVal.arr []⟩].map tupleOf) :=
  ⟨by decide, flatten_group_roundtrip 1 DurationUnit.half_day _ (by decide)⟩

/-- **C10**: entries whose `module_title` is not a string (for example the
JSON-array value stored per row by the array-storing import variant) are
grouped with an empty module title — the coercion in `groupScheduleBySession`
maps every non-string title to `""` — so one grouping/flattening pass
reproduces the entries' observation tuples only up to that coercion, every
record emitted by `flattenSchedule` carries a string title, and the original
non-string value is gone. -/
theorem group_erases_nonstring_titles (v : ℚ) (u : DurationUnit)
    (items : List ScheduleItem)
    (h : ∀ it ∈ items, isValidSlot (getSessionsAndDays v u).1
      (getSessionsAndDays v u).2 it = true) :
    ((flattenSchedule (groupScheduleBySession (getSessionsAndDays v u).1
        (getSessionsAndDays v u).2 items)).map tupleOf).Perm
      (items.map (fun it => (it.day_number, it.start_time, titleOf it.module_title,
        subsOf it.submodules))) ∧
    (∀ t : JVal, t.isStr = false → titleOf t = "") ∧
    (∀ rec_ ∈ flattenSchedule (groupScheduleBySession (getSessionsAndDays v u).1
        (getSessionsAndDays v u).2 items), ∃ str, rec_.module_title = JVal.str str) := by
  refine ⟨?_, ?_, ?_⟩
  · exact group_flatten_perm _ _ items h
  · intro t ht
    cases t with
    | str s => simp [JVal.isStr] at ht
    | arr xs => rfl
    | null => rfl
  · exact flatten_titles_str

/-- Witness for `group_erases_nonstring_titles`: a legacy entry whose title
is the JSON array `["Legacy","Array"]` sits in a valid slot; its grouped and
flattened tuple carries the empty title. -/
theorem group_erases_nonstring_titles_witness :
    (∀ it ∈ [(⟨"c", 1, "09:00", "11:00", JVal.arr ["Legacy", "Array"], JVal.null,
          120, JVal.null⟩ : ScheduleItem)],
      isValidSlot (getSessionsAndDays 1 DurationUnit.half_day).1
        (getSessionsAndDays 1 DurationUnit.half_day).2 it = true) ∧
    (((flattenSchedule (groupScheduleBySession
        (getSessionsAndDays 1 DurationUnit.half_day).1
        (getSessionsAndDays 1 DurationUnit.half_day).2
        [⟨"c", 1, "09:00", "11:00", JVal.arr ["Legacy", "Array"], JVal.null, 120,
          JVal.null⟩])).map tupleOf).Perm
      ([(⟨"c", 1, "09:00", "11:00", JVal.arr ["Legacy", "Array"], JVal.null, 120,
          JVal.null⟩ : ScheduleItem)].map
        (fun it => (it.day_number, it.start_time, titleOf it.module_title,
          subsOf it.submodules)))) :=
  ⟨by decide, (group_erases_nonstring_titles 1 DurationUnit.half_day _ (by decide)).1⟩

/-! ## Skip-if-exists import: idempotence (C8 support) -/

theorem importStep_cases (st : Store) (row : SchedRow) :
    importStep st row = (st, RowOutcome.skipped) ∨
    ∃ rec_ : SchedRecord, rec_.id = jsTrim row.id ∧
      findScheduleById st (jsTrim row.id) = false ∧
      importStep st row = ({ st with schedules := st.schedules ++ [rec_] },
        RowOutcome.imported) := by
  simp only [importStep]
  split
  · exact Or.inl rfl
  · split
    · exact Or.inl rfl
    · split
      · exact Or.inl rfl
      · next hex =>
        split
        · exact Or.inl rfl
        · split
          · exact Or.inl rfl
          · split
            · exact Or.inl rfl
            · refine Or.inr ⟨_, rfl, ?_, rfl⟩
              simpa using hex

theorem importStep_skipped_full {st : Store} {row : SchedRow}
    (h : (importStep st row).2 = RowOutcome.skipped) :
    importStep st row = (st, RowOutcome.skipped) := by
  rcases importStep_cases st row with hs | ⟨rec_, _, _, hc⟩
  · exact hs
  · rw [hc] at h
    simp at h

theorem importStep_courses (st : Store) (row : SchedRow) :
    (importStep st row).1.courses = st.courses := by
  rcases importStep_cases st row with hs | ⟨rec_, _, _, hc⟩
  · rw [hs]
  · rw [hc]

theorem importStep_sched_mono {st : Store} (row : SchedRow) {i : String}
    (h : findScheduleById st i = true) :
    findScheduleById (importStep st row).1 i = true := by
  rcases importStep_cases st row with hs | ⟨rec_, _, _, hc⟩
  · rw [hs]
    exact h
  · rw [hc]
    unfold findScheduleById at h ⊢
    simp only [List.any_append]
    simp [h]

theorem importStep_skip_of_exists {st : Store} {row : SchedRow}
    (h : findScheduleById st (jsTrim row.id) = true) :
    (importStep st row).2 = RowOutcome.skipped := by
  rcases importStep_cases st row with hs | ⟨rec_, _, hnex, hc⟩
  · rw [hs]
  · rw [h] at hnex
    cases hnex

theorem importStep_creates_iff (st : Store) (row : SchedRow) :
    (importStep st row).2 = RowOutcome.imported ↔
      (jsTrim row.course_id ≠ "" ∧ findCourse st (jsTrim row.course_id) = true ∧
       findScheduleById st (jsTrim row.id) = false ∧
       (∃ d : Int, jsParseInt row.day_number = some d ∧ ¬ d < 1) ∧
       parseModuleTitle row.module_title ≠ []) := by
  simp only [importStep]
  split
  · next h1 => simp [h1]
  · next h1 =>
    split
    · next h2 =>
      simp only [Bool.not_eq_true'] at h2
      simp [h2]
    · next h2 =>
      simp only [Bool.not_eq_true, Bool.not_eq_false] at h2
      split
      · next h3 => simp [h3]
      · next h3 =>
        simp only [Bool.not_eq_true] at h3
        split
        · next heq => simp [heq]
        · next d heq =>
          split
          · next h4 => simp [heq, h4]
          · next h4 =>
            split
            · next h5 => simp [heq, h5]
            · next h5 =>
              constructor
              · intro _
                exact ⟨h1, by simpa using h2, h3, ⟨d, heq, h4⟩, h5⟩
              · intro _
                rfl

theorem importAccStep_store (acc : Store × Summary) (row : SchedRow) :
    (importAccStep acc row).1 = (importStep acc.1 row).1 := by
  unfold importAccStep
  rcases h : importStep acc.1 row with ⟨st2, oc⟩
  cases oc <;> simp

theorem importFold_courses (rows : List SchedRow) :
    ∀ acc : Store × Summary,
      (rows.foldl importAccStep acc).1.courses = acc.1.courses := by
  induction rows with
  | nil => intro acc; rfl
  | cons r rs ih =>
    intro acc
    rw [List.foldl_cons, ih (importAccStep acc r), importAccStep_store,
      importStep_courses]

theorem importFold_sched_mono (rows : List SchedRow) :
    ∀ (acc : Store × Summary) (i : String), findScheduleById acc.1 i = true →
      findScheduleById (rows.foldl importAccStep acc).1 i = true := by
  induction rows with
  | nil => intro acc i h; exact h
  | cons r rs ih =>
    intro acc i h
    rw [List.foldl_cons]
    refine ih (importAccStep acc r) i ?_
    rw [importAccStep_store]
    exact importStep_sched_mono r h

theorem willSkip_mono {st st2 : Store} {row : SchedRow}
    (hc : st2.courses = st.courses)
    (hs : ∀ i, findScheduleById st i = true → findScheduleById st2 i = true)
    (hw : (importStep st row).2 = RowOutcome.skipped) :
    (importStep st2 row).2 = RowOutcome.skipped := by
  rcases houtcome : (importStep st2 row).2 with _ | _
  · exfalso
    obtain ⟨hA, hB, hC, hD, hE⟩ := (importStep_creates_iff st2 row).1 houtcome
    have hB2 : findCourse st (jsTrim row.course_id) = true := by
      unfold findCourse at hB ⊢
      rw [← hc]
      exact hB
    have hC2 : findScheduleById st (jsTrim row.id) = false := by
      rcases hx : findScheduleById st (jsTrim row.id) with _ | _
      · rfl
      · rw [hs _ hx] at hC
        cases hC
    have hcre := (importStep_creates_iff st row).2 ⟨hA, hB2, hC2, hD, hE⟩
    rw [hcre] at hw
    cases hw
  · rfl

theorem run1_all_skip (rows : List SchedRow) :
    ∀ acc : Store × Summary, ∀ row ∈ rows,
      (importStep (rows.foldl importAccStep acc).1 row).2 = RowOutcome.skipped := by
  induction rows with
  | nil => intro acc row h; simp at h
  | cons r rs ih =>
    intro acc row hrow
    rw [List.foldl_cons]
    rcases List.mem_cons.1 hrow with rfl | hmem
    · rcases importStep_cases acc.1 row with hskip | ⟨rec_, hid, _, hcre⟩
      · refine willSkip_mono ?_ ?_ (by rw [hskip])
        · rw [importFold_courses, importAccStep_store, importStep_courses]
        · intro i h
          refine importFold_sched_mono rs (importAccStep acc row) i ?_
          rw [importAccStep_store]
          exact importStep_sched_mono row h
      · refine importStep_skip_of_exists ?_
        refine importFold_sched_mono rs (importAccStep acc row) _ ?_
        rw [importAccStep_store, hcre]
        unfold findScheduleById
        simp only [List.any_append]
        have : rec_.id = jsTrim row.id := hid
        simp [this]
    · exact ih (importAccStep acc r) row hmem

theorem run_of_all_skip (rows : List SchedRow) :
    ∀ (st : Store) (sm : Summary),
      (∀ row ∈ rows, (importStep st row).2 = RowOutcome.skipped) →
      rows.foldl importAccStep (st, sm)
        = (st, ⟨sm.success, sm.skipped + rows.length, sm.errors⟩) := by
  induction rows with
  | nil =>
    intro st sm _
    simp
  | cons r rs ih =>
    intro st sm hall
    rw [List.foldl_cons]
    have hstep : importAccStep (st, sm) r = (st, { sm with skipped := sm.skipped + 1 }) := by
      have hfull := importStep_skipped_full (hall r (by simp))
      unfold importAccStep
      rw [hfull]
    rw [hstep, ih st _ (fun row h => hall row (by simp [h]))]
    simp only [List.length_cons]
    congr 1
    simp only [Summary.mk.injEq]
    refine ⟨trivial, by omega, trivial⟩

/-- **C8**: in the skip-if-exists import, a row whose (trimmed) id already
names a stored record is skipped, counted as skipped, and modifies nothing;
consequently rerunning any row sequence over the store the first run
produced performs zero creates, leaves every stored record (and the course
table) unchanged, and reports all rows as skipped. -/
theorem importCourseSchedule_skip_if_exists_idempotent :
    (∀ (st : Store) (row : SchedRow), findScheduleById st (jsTrim row.id) = true →
      importStep st row = (st, RowOutcome.skipped)) ∧
    (∀ (rows : List SchedRow) (st : Store),
      importCourseSchedule rows (importCourseSchedule rows st).1
        = ((importCourseSchedule rows st).1, ⟨0, rows.length, 0⟩)) := by
  constructor
  · intro st row h
    exact importStep_skipped_full (importStep_skip_of_exists h)
  · intro rows st
    have hall := run1_all_skip rows (st, (⟨0, 0, 0⟩ : Summary))
    unfold importCourseSchedule
    rw [run_of_all_skip rows _ _ hall]
    simp

/-- Witness for `importCourseSchedule_skip_if_exists_idempotent`: a row whose
trimmed id `"id1"` already exists in the store is skipped with the store
untouched. -/
theorem importCourseSchedule_skip_if_exists_idempotent_witness :
    findScheduleById
        ⟨["c1"], [⟨"id1", "c1", 1, "09:00", "11:00", JVal.arr ["M"], none, some 120, ""⟩]⟩
        (jsTrim (⟨" id1 ", "c1", "1", "09:00", "11:00", "M", "", "120",
          ""⟩ : SchedRow).id) = true ∧
    importStep ⟨["c1"], [⟨"id1", "c1", 1, "09:00", "11:00", JVal.arr ["M"], none, some 120, ""⟩]⟩
        ⟨" id1 ", "c1", "1", "09:00", "11:00", "M", "", "120", ""⟩
      = (⟨["c1"], [⟨"id1", "c1", 1, "09:00", "11:00", JVal.arr ["M"], none, some 120, ""⟩]⟩,
        RowOutcome.skipped) :=
  ⟨by decide, importCourseSchedule_skip_if_exists_idempotent.1 _ _ (by decide)⟩

end TrainMice
